import Mathlib

/-!
Verification of the SDL2 maze program (`maze_sdl2.c`).

The C program keeps a global `MAZE_H × MAZE_W` array of cells, each cell a
4-bit wall mask (`N=1, E=2, S=4, W=8`) plus a `visited` flag.  We embed the
grid as a total function `Int → Int → Cell` (row index `y` first, mirroring
`g[y][x]`); all program reads and writes happen at in-bounds coordinates.
The C `rand()` stream is modelled as an arbitrary function `ρ : Nat → Nat`
together with a counter for how many calls have been made, and `rand() %
ncount` becomes `ρ k % ncount`.
-/

namespace Maze

/-- `MAZE_W` from the source: number of cells horizontally. -/
def MAZE_W : Nat := 21

/-- `MAZE_H` from the source: number of cells vertically. -/
def MAZE_H : Nat := 15

/-- Wall bit values: `WALL_N = 1`, `WALL_E = 2`, `WALL_S = 4`, `WALL_W = 8`. -/
def WALL_N : Nat := 1

def WALL_E : Nat := 2

def WALL_S : Nat := 4

def WALL_W : Nat := 8

/-- A cell of the grid: `uint8_t walls` (always a 4-bit mask) and `bool visited`. -/
structure Cell where
  walls : Nat
  visited : Bool
deriving DecidableEq

/-- The grid `static Cell g[MAZE_H][MAZE_W]`, embedded as a total function
`y ↦ x ↦ cell`.  The program only ever reads or writes in-bounds entries. -/
def Grid := Int → Int → Cell

/-- `in_bounds` from the source: `x >= 0 && x < MAZE_W && y >= 0 && y < MAZE_H`,
with the dimensions as parameters. -/
def in_bounds (W H : Nat) (x y : Int) : Prop :=
  0 ≤ x ∧ x < (W : Int) ∧ 0 ≤ y ∧ y < (H : Int)

instance (W H : Nat) (x y : Int) : Decidable (in_bounds W H x y) := by
  unfold in_bounds; infer_instance

/-- Write one cell of the grid: `g[y][x] = f (g[y][x])`. -/
def updCell (g : Grid) (x y : Int) (f : Cell → Cell) : Grid :=
  fun b a => if b = y ∧ a = x then f (g b a) else g b a

/-- `walls &= ~bit` on a `uint8_t`: the complement of a bit value `b` is
`255 ^^^ b`. -/
def clear_wall (b : Nat) (c : Cell) : Cell :=
  ⟨c.walls &&& (255 ^^^ b), c.visited⟩

/-- `knock_down` from the source: remove the wall between `(x,y)` and
`(nx,ny)`; non-adjacent pairs fall through all four tests and do nothing. -/
def knock_down (g : Grid) (x y nx ny : Int) : Grid :=
  if nx = x ∧ ny = y - 1 then
    updCell (updCell g x y (clear_wall WALL_N)) nx ny (clear_wall WALL_S)
  else if nx = x + 1 ∧ ny = y then
    updCell (updCell g x y (clear_wall WALL_E)) nx ny (clear_wall WALL_W)
  else if nx = x ∧ ny = y + 1 then
    updCell (updCell g x y (clear_wall WALL_S)) nx ny (clear_wall WALL_N)
  else if nx = x - 1 ∧ ny = y then
    updCell (updCell g x y (clear_wall WALL_W)) nx ny (clear_wall WALL_E)
  else g

/-- `maze_init` from the source: every cell gets the full wall mask
`WALL_N|WALL_E|WALL_S|WALL_W = 15` and `visited = false`. -/
def maze_init : Grid := fun _ _ => ⟨WALL_N ||| WALL_E ||| WALL_S ||| WALL_W, false⟩

/-- The neighbour offsets used by the generator (and by the movement keys):
`dx = {0, 1, 0, -1}`, `dy = {-1, 0, 1, 0}` — north, east, south, west. -/
def nbr_deltas : List (Int × Int) := [(0, -1), (1, 0), (0, 1), (-1, 0)]

/-- The loop in `maze_generate` that collects the in-bounds unvisited
neighbours of `(x, y)`, in N, E, S, W order. -/
def unvisited_neighbors (W H : Nat) (g : Grid) (x y : Int) : List (Int × Int) :=
  (nbr_deltas.map (fun d => (x + d.1, y + d.2))).filter
    (fun p => decide (in_bounds W H p.1 p.2) && !(g p.2 p.1).visited)

/-- The wall bit of the source cell checked for a movement delta:
`N` for `(0,-1)`, `E` for `(1,0)`, `S` for `(0,1)`, `W` for `(-1,0)`. -/
def dir_wall (d : Int × Int) : Nat :=
  if d = (0, -1) then WALL_N
  else if d = (1, 0) then WALL_E
  else if d = (0, 1) then WALL_S
  else if d = (-1, 0) then WALL_W
  else 0

/-- `try_move` from the source, as a pure function: given the grid and the
player cell `(px, py)`, return `(moved?, px', py')`. -/
def try_move (W H : Nat) (g : Grid) (px py dx dy : Int) : Bool × Int × Int :=
  let x := px
  let y := py
  let nx := x + dx
  let ny := y + dy
  if ¬ in_bounds W H nx ny then (false, px, py)
  else
    let w := (g y x).walls
    if dx = 0 ∧ dy = -1 ∧ w &&& WALL_N ≠ 0 then (false, px, py)
    else if dx = 1 ∧ dy = 0 ∧ w &&& WALL_E ≠ 0 then (false, px, py)
    else if dx = 0 ∧ dy = 1 ∧ w &&& WALL_S ≠ 0 then (false, px, py)
    else if dx = -1 ∧ dy = 0 ∧ w &&& WALL_W ≠ 0 then (false, px, py)
    else (true, nx, ny)

/-- The in-bounds cells as a finite set of coordinates. -/
def cellFinset (W H : Nat) : Finset (Int × Int) :=
  ((Finset.range W) ×ˢ (Finset.range H)).image (fun p => ((p.1 : Int), (p.2 : Int)))

/-- Number of in-bounds cells whose `visited` flag is set. -/
def visitedCount (W H : Nat) (g : Grid) : Nat :=
  ((cellFinset W H).filter (fun p => (g p.2 p.1).visited = true)).card

/-- Number of in-bounds cells whose `visited` flag is clear; the termination
measure of the generation loop shrinks when a cell is marked visited. -/
def unvisitedCount (W H : Nat) (g : Grid) : Nat :=
  ((cellFinset W H).filter (fun p => (g p.2 p.1).visited = false)).card

theorem mem_cellFinset {W H : Nat} {p : Int × Int} :
    p ∈ cellFinset W H ↔ in_bounds W H p.1 p.2 := by
  unfold cellFinset in_bounds
  simp only [Finset.mem_image, Finset.mem_product, Finset.mem_range]
  constructor
  · rintro ⟨⟨a, b⟩, ⟨ha, hb⟩, rfl⟩
    refine ⟨by positivity, ?_, by positivity, ?_⟩ <;> simp <;> omega
  · rintro ⟨h0, h1, h2, h3⟩
    refine ⟨(p.1.toNat, p.2.toNat), ⟨by omega, by omega⟩, ?_⟩
    simp only [Prod.ext_iff]
    constructor <;> simp <;> omega

theorem card_cellFinset (W H : Nat) : (cellFinset W H).card = W * H := by
  unfold cellFinset
  rw [Finset.card_image_of_injective, Finset.card_product, Finset.card_range,
    Finset.card_range]
  intro a b hab
  simp only [Prod.ext_iff] at hab ⊢
  exact ⟨by exact_mod_cast hab.1, by exact_mod_cast hab.2⟩

theorem updCell_self (g : Grid) (x y : Int) (f : Cell → Cell) :
    updCell g x y f y x = f (g y x) := by
  simp [updCell]

theorem updCell_ne (g : Grid) (x y : Int) (f : Cell → Cell) {b a : Int}
    (h : ¬(b = y ∧ a = x)) : updCell g x y f b a = g b a := by
  simp only [updCell, if_neg h]

/-- `knock_down` never changes a `visited` flag. -/
theorem knock_down_visited (g : Grid) (x y nx ny b a : Int) :
    ((knock_down g x y nx ny) b a).visited = (g b a).visited := by
  unfold knock_down
  split_ifs <;> simp_all [updCell, clear_wall] <;> split_ifs <;> simp_all

/-- Clearing one wall bit with a complement mask zeroes that bit. -/
theorem and_mask_zero (w b m : Nat) (h : m &&& b = 0) : (w &&& m) &&& b = 0 := by
  rw [Nat.land_assoc, h]
  simp

/-- Clearing one wall bit with a complement mask keeps every other bit. -/
theorem and_mask_keep (w b m : Nat) (h : m &&& b = b) : (w &&& m) &&& b = w &&& b := by
  rw [Nat.land_assoc, h]

/-- A bit that is already zero stays zero after masking. -/
theorem and_zero_mono (w b m : Nat) (h : w &&& b = 0) : (w &&& m) &&& b = 0 := by
  rw [Nat.land_assoc, Nat.land_comm m b, ← Nat.land_assoc, h]
  simp

/-- Cells other than the two endpoints are untouched by `knock_down`. -/
theorem knock_down_other (g : Grid) (x y nx ny : Int) {b a : Int}
    (h1 : ¬(b = y ∧ a = x)) (h2 : ¬(b = ny ∧ a = nx)) :
    (knock_down g x y nx ny) b a = g b a := by
  unfold knock_down
  split_ifs <;> (try rfl) <;> rw [updCell_ne _ _ _ _ h2, updCell_ne _ _ _ _ h1]

theorem knock_N_src (g : Grid) (x y : Int) :
    ((knock_down g x y x (y - 1)) y x).walls = (g y x).walls &&& (255 ^^^ WALL_N) := by
  unfold knock_down
  rw [if_pos ⟨rfl, rfl⟩, updCell_ne _ _ _ _ (by intro h; omega), updCell_self]
  rfl

theorem knock_N_tgt (g : Grid) (x y : Int) :
    ((knock_down g x y x (y - 1)) (y - 1) x).walls
      = (g (y - 1) x).walls &&& (255 ^^^ WALL_S) := by
  unfold knock_down
  rw [if_pos ⟨rfl, rfl⟩, updCell_self, updCell_ne _ _ _ _ (by intro h; omega)]
  rfl

theorem knock_E_src (g : Grid) (x y : Int) :
    ((knock_down g x y (x + 1) y) y x).walls = (g y x).walls &&& (255 ^^^ WALL_E) := by
  unfold knock_down
  rw [if_neg (by intro h; omega), if_pos ⟨rfl, rfl⟩,
    updCell_ne _ _ _ _ (by intro h; omega), updCell_self]
  rfl

theorem knock_E_tgt (g : Grid) (x y : Int) :
    ((knock_down g x y (x + 1) y) y (x + 1)).walls
      = (g y (x + 1)).walls &&& (255 ^^^ WALL_W) := by
  unfold knock_down
  rw [if_neg (by intro h; omega), if_pos ⟨rfl, rfl⟩, updCell_self,
    updCell_ne _ _ _ _ (by intro h; omega)]
  rfl

theorem knock_S_src (g : Grid) (x y : Int) :
    ((knock_down g x y x (y + 1)) y x).walls = (g y x).walls &&& (255 ^^^ WALL_S) := by
  unfold knock_down
  rw [if_neg (by intro h; omega), if_neg (by intro h; omega), if_pos ⟨rfl, rfl⟩,
    updCell_ne _ _ _ _ (by intro h; omega), updCell_self]
  rfl

theorem knock_S_tgt (g : Grid) (x y : Int) :
    ((knock_down g x y x (y + 1)) (y + 1) x).walls
      = (g (y + 1) x).walls &&& (255 ^^^ WALL_N) := by
  unfold knock_down
  rw [if_neg (by intro h; omega), if_neg (by intro h; omega), if_pos ⟨rfl, rfl⟩,
    updCell_self, updCell_ne _ _ _ _ (by intro h; omega)]
  rfl

theorem knock_W_src (g : Grid) (x y : Int) :
    ((knock_down g x y (x - 1) y) y x).walls = (g y x).walls &&& (255 ^^^ WALL_W) := by
  unfold knock_down
  rw [if_neg (by intro h; omega), if_neg (by intro h; omega),
    if_neg (by intro h; omega), if_pos ⟨rfl, rfl⟩,
    updCell_ne _ _ _ _ (by intro h; omega), updCell_self]
  rfl

theorem knock_W_tgt (g : Grid) (x y : Int) :
    ((knock_down g x y (x - 1) y) y (x - 1)).walls
      = (g y (x - 1)).walls &&& (255 ^^^ WALL_E) := by
  unfold knock_down
  rw [if_neg (by intro h; omega), if_neg (by intro h; omega),
    if_neg (by intro h; omega), if_pos ⟨rfl, rfl⟩, updCell_self,
    updCell_ne _ _ _ _ (by intro h; omega)]
  rfl

/-- Counting a filter that gains exactly one new element. -/
theorem filter_card_add_one {α : Type} [DecidableEq α] {s : Finset α}
    {p q : α → Prop} [DecidablePred p] [DecidablePred q] {a : α}
    (ha : a ∈ s) (hpa : ¬p a) (hqa : q a)
    (hag : ∀ b ∈ s, b ≠ a → (p b ↔ q b)) :
    (s.filter q).card = (s.filter p).card + 1 := by
  have hins : s.filter q = insert a (s.filter p) := by
    ext b
    simp only [Finset.mem_filter, Finset.mem_insert]
    constructor
    · rintro ⟨hb, hq⟩
      by_cases hba : b = a
      · exact Or.inl hba
      · exact Or.inr ⟨hb, (hag b hb hba).mpr hq⟩
    · rintro (rfl | ⟨hb, hp⟩)
      · exact ⟨ha, hqa⟩
      · refine ⟨hb, ?_⟩
        by_cases hba : b = a
        · exact absurd (hba ▸ hp) hpa
        · exact (hag b hb hba).mp hp
  rw [hins, Finset.card_insert_of_not_mem (by simp [hpa])]

/-- Counting a filter that loses at least the element `a`. -/
theorem filter_card_lt {α : Type} [DecidableEq α] {s : Finset α}
    {p q : α → Prop} [DecidablePred p] [DecidablePred q] {a : α}
    (ha : a ∈ s) (hpa : p a) (hqa : ¬q a)
    (himp : ∀ b ∈ s, q b → p b) :
    (s.filter q).card < (s.filter p).card := by
  apply Finset.card_lt_card
  constructor
  · intro b hb
    simp only [Finset.mem_filter] at hb ⊢
    exact ⟨hb.1, himp b hb.1 hb.2⟩
  · intro hsub
    have := hsub (Finset.mem_filter.mpr ⟨ha, hpa⟩)
    simp only [Finset.mem_filter] at this
    exact hqa this.2

/-- Elements of `unvisited_neighbors` are in bounds and unvisited. -/
theorem mem_unvisited_neighbors {W H : Nat} {g : Grid} {x y : Int} {p : Int × Int}
    (h : p ∈ unvisited_neighbors W H g x y) :
    (∃ d ∈ nbr_deltas, p = (x + d.1, y + d.2)) ∧
      in_bounds W H p.1 p.2 ∧ (g p.2 p.1).visited = false := by
  unfold unvisited_neighbors at h
  rw [List.mem_filter] at h
  obtain ⟨hmem, hcond⟩ := h
  rw [List.mem_map] at hmem
  obtain ⟨d, hd, rfl⟩ := hmem
  simp only [Bool.and_eq_true, decide_eq_true_eq, Bool.not_eq_eq_eq_not,
    Bool.not_true] at hcond
  exact ⟨⟨d, hd, rfl⟩, hcond.1, hcond.2⟩

/-- The `visited` field after carving into a fresh neighbour `n`. -/
theorem push_visited (g : Grid) (x y : Int) (n : Int × Int) (b a : Int) :
    ((updCell (knock_down g x y n.1 n.2) n.1 n.2 (fun c => ⟨c.walls, true⟩)) b a).visited
      = if b = n.2 ∧ a = n.1 then true else (g b a).visited := by
  by_cases h : b = n.2 ∧ a = n.1
  · obtain ⟨rfl, rfl⟩ := h
    rw [updCell_self, if_pos ⟨rfl, rfl⟩]
  · rw [updCell_ne _ _ _ _ h, if_neg h, knock_down_visited]

theorem unvisitedCount_lt (W H : Nat) {g : Grid} {x y : Int} {n : Int × Int}
    (hinb : in_bounds W H n.1 n.2) (hunvis : (g n.2 n.1).visited = false) :
    unvisitedCount W H
        (updCell (knock_down g x y n.1 n.2) n.1 n.2 (fun c => ⟨c.walls, true⟩))
      < unvisitedCount W H g := by
  apply filter_card_lt (mem_cellFinset.mpr hinb) hunvis
  · rw [push_visited, if_pos ⟨rfl, rfl⟩]
    simp
  · intro b _ hb
    rw [push_visited] at hb
    by_cases h : b.2 = n.2 ∧ b.1 = n.1
    · rw [if_pos h] at hb
      exact absurd hb (by simp)
    · rwa [if_neg h] at hb

/-- The termination measure drops when the loop carves into a fresh cell. -/
theorem genLoop_dec (W H : Nat) (g : Grid) (x y : Int) (rest : List (Int × Int))
    (i : Nat) (h : i < (unvisited_neighbors W H g x y).length) :
    2 * unvisitedCount W H
        (updCell
          (knock_down g x y ((unvisited_neighbors W H g x y).get ⟨i, h⟩).1
            ((unvisited_neighbors W H g x y).get ⟨i, h⟩).2)
          ((unvisited_neighbors W H g x y).get ⟨i, h⟩).1
          ((unvisited_neighbors W H g x y).get ⟨i, h⟩).2 (fun c => ⟨c.walls, true⟩))
        + (((unvisited_neighbors W H g x y).get ⟨i, h⟩) :: (x, y) :: rest).length
      < 2 * unvisitedCount W H g + ((x, y) :: rest).length := by
  have hmem := mem_unvisited_neighbors (List.get_mem (unvisited_neighbors W H g x y) i h)
  have hlt := unvisitedCount_lt W H (x := x) (y := y) hmem.2.1 hmem.2.2
  simp only [List.length_cons]
  omega

/-- The while loop of `maze_generate`, with the explicit stack as a list whose
head is `stack[top-1]` and `k` the number of `rand()` calls made so far.
Returns the final grid together with the final `rand()` position. -/
def genLoop (W H : Nat) (ρ : Nat → Nat) (g : Grid) (stack : List (Int × Int))
    (k : Nat) : Grid × Nat :=
  match stack with
  | [] => (g, k)
  | (x, y) :: rest =>
    let ns := unvisited_neighbors W H g x y
    if hns : ns.length = 0 then
      genLoop W H ρ g rest k
    else
      let n := ns.get ⟨ρ k % ns.length, Nat.mod_lt _ (Nat.pos_of_ne_zero hns)⟩
      let g2 := updCell (knock_down g x y n.1 n.2) n.1 n.2 (fun c => ⟨c.walls, true⟩)
      genLoop W H ρ g2 (n :: (x, y) :: rest) (k + 1)
  termination_by 2 * unvisitedCount W H g + stack.length
  decreasing_by
  · simp only [List.length_cons]
    omega
  · exact genLoop_dec W H g x y rest _ _

/-- One iteration of the `maze_generate` while loop, as a step function on
`(grid, stack, rand position)`; the empty stack is a fixed point. -/
def genStep (W H : Nat) (ρ : Nat → Nat) :
    Grid × List (Int × Int) × Nat → Grid × List (Int × Int) × Nat
  | (g, [], k) => (g, [], k)
  | (g, (x, y) :: rest, k) =>
    let ns := unvisited_neighbors W H g x y
    if hns : ns.length = 0 then
      (g, rest, k)
    else
      let n := ns.get ⟨ρ k % ns.length, Nat.mod_lt _ (Nat.pos_of_ne_zero hns)⟩
      let g2 := updCell (knock_down g x y n.1 n.2) n.1 n.2 (fun c => ⟨c.walls, true⟩)
      (g2, n :: (x, y) :: rest, k + 1)

/-- The reachable-states relation of the generation loop: one step taken from a
state whose stack is non-empty (`top > 0`). -/
def GenReach (W H : Nat) (ρ : Nat → Nat)
    (s t : Grid × List (Int × Int) × Nat) : Prop :=
  Relation.ReflTransGen (fun u v => u.2.1 ≠ [] ∧ v = genStep W H ρ u) s t

/-- The state of the loop right after `g[sy][sx].visited = true; stack[top++] = {sx,sy}`. -/
def genStart (g : Grid) (sx sy : Int) : Grid × List (Int × Int) × Nat :=
  (updCell g sx sy (fun c => ⟨c.walls, true⟩), [(sx, sy)], 0)

/-- The final pass of `maze_generate`: clear the `visited` flag of every
in-bounds cell. -/
def clear_visited (W H : Nat) (g : Grid) : Grid :=
  fun b a => if in_bounds W H a b then ⟨(g b a).walls, false⟩ else g b a

/-- `maze_generate` from the source: mark the start visited, push it, run the
carving loop, then clear all `visited` flags. -/
def maze_generate (W H : Nat) (ρ : Nat → Nat) (g : Grid) (sx sy : Int) : Grid :=
  let s := genStart g sx sy
  clear_visited W H (genLoop W H ρ s.1 s.2.1 s.2.2).1

/-- The player/win part of the session state in `main`. -/
structure Session where
  px : Int
  py : Int
  won : Bool
deriving DecidableEq

/-- The grid produced by `regenerate`: `maze_init()` then `maze_generate(0,0)`. -/
def regenerate_grid (W H : Nat) (ρ : Nat → Nat) : Grid :=
  maze_generate W H ρ maze_init 0 0

/-- The full effect of the `R` key in `main`: `regenerate(&px, &py, win)`
(which rebuilds the grid and puts the player at `(0,0)`) followed by
`won = false`. -/
def handle_regen (W H : Nat) (ρ : Nat → Nat) (_s : Grid × Session) : Grid × Session :=
  (regenerate_grid W H ρ, ⟨0, 0, false⟩)

/-- The effect of one movement key in `main`: if `won` is set nothing happens;
otherwise `try_move` runs and afterwards the win check
`px == MAZE_W-1 && py == MAZE_H-1` may set `won`. -/
def handle_move (W H : Nat) (g : Grid) (s : Session) (d : Int × Int) : Session :=
  if s.won then s
  else
    let r := try_move W H g s.px s.py d.1 d.2
    if r.2.1 = (W : Int) - 1 ∧ r.2.2 = (H : Int) - 1 then ⟨r.2.1, r.2.2, true⟩
    else ⟨r.2.1, r.2.2, s.won⟩

/-- Run a list of movement keys through the session. -/
def run_session (W H : Nat) (g : Grid) (s : Session) (ds : List (Int × Int)) : Session :=
  ds.foldl (handle_move W H g) s

/-- Iterate bare `try_move` over a list of deltas, ignoring the win latch:
the final player position. -/
def run_moves (W H : Nat) (g : Grid) : Int × Int → List (Int × Int) → Int × Int
  | p, [] => p
  | p, d :: ds =>
    run_moves W H g ((try_move W H g p.1 p.2 d.1 d.2).2.1,
      (try_move W H g p.1 p.2 d.1 d.2).2.2) ds

/-- Every `try_move` along the list succeeds. -/
def moves_ok (W H : Nat) (g : Grid) : Int × Int → List (Int × Int) → Prop
  | _, [] => True
  | p, d :: ds =>
    (try_move W H g p.1 p.2 d.1 d.2).1 = true ∧
      moves_ok W H g ((try_move W H g p.1 p.2 d.1 d.2).2.1,
        (try_move W H g p.1 p.2 d.1 d.2).2.2) ds

/-- Two cells are 4-adjacent: their delta is one of the four unit cardinals. -/
def adj_cells (p q : Int × Int) : Prop := (q.1 - p.1, q.2 - p.2) ∈ nbr_deltas

instance (p q : Int × Int) : Decidable (adj_cells p q) := by
  unfold adj_cells
  infer_instance

/-- A passage from `p` to `q`, read on the source side: `q` is a 4-neighbour of
`p`, both are in bounds, and `p`'s wall bit facing `q` is clear. -/
def openAdj (W H : Nat) (g : Grid) (p q : Int × Int) : Prop :=
  in_bounds W H p.1 p.2 ∧ in_bounds W H q.1 q.2 ∧
    ((q = (p.1, p.2 - 1) ∧ (g p.2 p.1).walls &&& WALL_N = 0) ∨
     (q = (p.1 + 1, p.2) ∧ (g p.2 p.1).walls &&& WALL_E = 0) ∨
     (q = (p.1, p.2 + 1) ∧ (g p.2 p.1).walls &&& WALL_S = 0) ∨
     (q = (p.1 - 1, p.2) ∧ (g p.2 p.1).walls &&& WALL_W = 0))

/-- Wall reciprocity, stated over horizontal and vertical in-bounds pairs:
`E` of a cell mirrors `W` of its east neighbour, `S` mirrors `N` of its south
neighbour. -/
def RecipHV (W H : Nat) (g : Grid) : Prop :=
  (∀ x y : Int, in_bounds W H x y → in_bounds W H (x + 1) y →
    ((g y x).walls &&& WALL_E = 0 ↔ (g y (x + 1)).walls &&& WALL_W = 0)) ∧
  (∀ x y : Int, in_bounds W H x y → in_bounds W H x (y + 1) →
    ((g y x).walls &&& WALL_S = 0 ↔ (g (y + 1) x).walls &&& WALL_N = 0))

/-- Wall reciprocity in the form of the specification: for every pair of
4-adjacent in-bounds cells `A, B`, `A`'s wall bit facing `B` is set iff `B`'s
wall bit facing `A` is set. -/
def Recip (W H : Nat) (g : Grid) : Prop :=
  ∀ p q : Int × Int, in_bounds W H p.1 p.2 → in_bounds W H q.1 q.2 →
    adj_cells p q →
    ((g p.2 p.1).walls &&& dir_wall (q.1 - p.1, q.2 - p.2) = 0 ↔
     (g q.2 q.1).walls &&& dir_wall (p.1 - q.1, p.2 - q.2) = 0)

/-- The number of missing walls between adjacent in-bounds cells, each passage
counted once: east-openings at their west cell plus south-openings at their
north cell. -/
def passageCount (W H : Nat) (g : Grid) : Nat :=
  ((cellFinset W H).filter
    (fun p => p.1 + 1 < (W : Int) ∧ (g p.2 p.1).walls &&& WALL_E = 0)).card
  + ((cellFinset W H).filter
    (fun p => p.2 + 1 < (H : Int) ∧ (g p.2 p.1).walls &&& WALL_S = 0)).card

/-- The loop invariant of the generation loop, for start cell `s`. -/
structure GenInv (W H : Nat) (s : Int × Int) (g : Grid)
    (stack : List (Int × Int)) : Prop where
  stack_inb : ∀ p ∈ stack, in_bounds W H p.1 p.2
  stack_nodup : stack.Nodup
  stack_vis : ∀ p ∈ stack, (g p.2 p.1).visited = true
  start_vis : (g s.2 s.1).visited = true
  closure : ∀ p : Int × Int, in_bounds W H p.1 p.2 → (g p.2 p.1).visited = true →
    p ∉ stack → ∀ d ∈ nbr_deltas, in_bounds W H (p.1 + d.1) (p.2 + d.2) →
    (g (p.2 + d.2) (p.1 + d.1)).visited = true
  reach : ∀ p : Int × Int, in_bounds W H p.1 p.2 → (g p.2 p.1).visited = true →
    Relation.ReflTransGen (openAdj W H g) s p
  fresh : ∀ p : Int × Int, in_bounds W H p.1 p.2 → (g p.2 p.1).visited = false →
    (g p.2 p.1).walls = 15
  recip : RecipHV W H g
  count : passageCount W H g + 1 = visitedCount W H g
  parent : ∃ (par : Int × Int → Int × Int) (rank : Int × Int → Nat),
    ∀ p q, openAdj W H g p q →
      (q = par p ∧ rank q < rank p) ∨ (p = par q ∧ rank p < rank q)

/-- Marking a cell visited does not change any wall. -/
theorem setvis_walls (g : Grid) (u v b a : Int) :
    ((updCell g u v (fun c => ⟨c.walls, true⟩)) b a).walls = (g b a).walls := by
  by_cases h : b = v ∧ a = u
  · obtain ⟨rfl, rfl⟩ := h
    rw [updCell_self]
  · rw [updCell_ne _ _ _ _ h]

/-- `clear_visited` does not change any wall. -/
theorem clear_visited_walls (W H : Nat) (g : Grid) (b a : Int) :
    ((clear_visited W H g) b a).walls = (g b a).walls := by
  unfold clear_visited
  split_ifs <;> rfl

/-- `clear_visited` clears the flag of every in-bounds cell. -/
theorem clear_visited_visited (W H : Nat) (g : Grid) {b a : Int}
    (h : in_bounds W H a b) : ((clear_visited W H g) b a).visited = false := by
  unfold clear_visited
  rw [if_pos h]

/-- `openAdj` only reads walls. -/
theorem openAdj_walls_congr {W H : Nat} {g1 g2 : Grid}
    (h : ∀ b a, (g1 b a).walls = (g2 b a).walls) (p q : Int × Int) :
    openAdj W H g1 p q ↔ openAdj W H g2 p q := by
  unfold openAdj
  rw [h p.2 p.1]

/-- `RecipHV` only reads walls. -/
theorem recipHV_walls_congr {W H : Nat} {g1 g2 : Grid}
    (h : ∀ b a, (g1 b a).walls = (g2 b a).walls) :
    RecipHV W H g1 ↔ RecipHV W H g2 := by
  unfold RecipHV
  constructor
  · rintro ⟨h1, h2⟩
    exact ⟨fun x y hx hy => by rw [← h y x, ← h y (x + 1)]; exact h1 x y hx hy,
      fun x y hx hy => by rw [← h y x, ← h (y + 1) x]; exact h2 x y hx hy⟩
  · rintro ⟨h1, h2⟩
    exact ⟨fun x y hx hy => by rw [h y x, h y (x + 1)]; exact h1 x y hx hy,
      fun x y hx hy => by rw [h y x, h (y + 1) x]; exact h2 x y hx hy⟩

/-- `passageCount` only reads walls. -/
theorem passageCount_walls_congr {W H : Nat} {g1 g2 : Grid}
    (h : ∀ b a, (g1 b a).walls = (g2 b a).walls) :
    passageCount W H g1 = passageCount W H g2 := by
  unfold passageCount
  have e1 : (cellFinset W H).filter
        (fun p : Int × Int => p.1 + 1 < (W : Int) ∧ (g1 p.2 p.1).walls &&& WALL_E = 0)
      = (cellFinset W H).filter
        (fun p : Int × Int => p.1 + 1 < (W : Int) ∧ (g2 p.2 p.1).walls &&& WALL_E = 0) :=
    Finset.filter_congr (fun p _ => by rw [h p.2 p.1])
  have e2 : (cellFinset W H).filter
        (fun p : Int × Int => p.2 + 1 < (H : Int) ∧ (g1 p.2 p.1).walls &&& WALL_S = 0)
      = (cellFinset W H).filter
        (fun p : Int × Int => p.2 + 1 < (H : Int) ∧ (g2 p.2 p.1).walls &&& WALL_S = 0) :=
    Finset.filter_congr (fun p _ => by rw [h p.2 p.1])
  rw [e1, e2]

/-- Reading a cell of a single update: either the updated cell or unchanged. -/
theorem updCell_cases (g : Grid) (u v : Int) (f : Cell → Cell) (b a : Int) :
    (updCell g u v f) b a = f (g b a) ∨ (updCell g u v f) b a = g b a := by
  unfold updCell
  split_ifs
  · exact Or.inl rfl
  · exact Or.inr rfl

/-- Reading a cell after the two reciprocal wall clears of a knock. -/
theorem double_clear_cases (g : Grid) (u v w z : Int) (b1 b2 : Nat) (b a : Int) :
    ((updCell (updCell g u v (clear_wall b1)) w z (clear_wall b2)) b a).walls
        = (g b a).walls ∨
      ∃ m, ((updCell (updCell g u v (clear_wall b1)) w z (clear_wall b2)) b a).walls
        = (g b a).walls &&& m := by
  rcases updCell_cases (updCell g u v (clear_wall b1)) w z (clear_wall b2) b a
      with h2 | h2 <;>
    rcases updCell_cases g u v (clear_wall b1) b a with h1 | h1 <;>
    rw [h2] <;> try rw [h1]
  · exact Or.inr ⟨(255 ^^^ b1) &&& (255 ^^^ b2), by simp [clear_wall, Nat.land_assoc]⟩
  · exact Or.inr ⟨255 ^^^ b2, rfl⟩
  · exact Or.inr ⟨255 ^^^ b1, rfl⟩
  · exact Or.inl rfl

/-- After a `knock_down`, every cell has either its old walls or its old walls
masked. -/
theorem knock_walls_cases (g : Grid) (x y nx ny b a : Int) :
    ((knock_down g x y nx ny) b a).walls = (g b a).walls ∨
      ∃ m, ((knock_down g x y nx ny) b a).walls = (g b a).walls &&& m := by
  unfold knock_down
  split_ifs <;> first
    | exact Or.inl rfl
    | exact double_clear_cases g _ _ _ _ _ _ b a

/-- A missing wall stays missing through a `knock_down`. -/
theorem knock_zero_mono (g : Grid) (x y nx ny b a : Int) (bit : Nat)
    (h : (g b a).walls &&& bit = 0) :
    ((knock_down g x y nx ny) b a).walls &&& bit = 0 := by
  rcases knock_walls_cases g x y nx ny b a with hc | ⟨m, hc⟩
  · rw [hc, h]
  · rw [hc]
    exact and_zero_mono _ _ _ h

/-- `openAdj` is monotone under `knock_down`. -/
theorem openAdj_mono_knock {W H : Nat} {g : Grid} (x y nx ny : Int)
    {p q : Int × Int} (h : openAdj W H g p q) :
    openAdj W H (knock_down g x y nx ny) p q := by
  obtain ⟨h1, h2, h3⟩ := h
  refine ⟨h1, h2, ?_⟩
  rcases h3 with ⟨hq, hw⟩ | ⟨hq, hw⟩ | ⟨hq, hw⟩ | ⟨hq, hw⟩
  · exact Or.inl ⟨hq, knock_zero_mono _ _ _ _ _ _ _ _ hw⟩
  · exact Or.inr (Or.inl ⟨hq, knock_zero_mono _ _ _ _ _ _ _ _ hw⟩)
  · exact Or.inr (Or.inr (Or.inl ⟨hq, knock_zero_mono _ _ _ _ _ _ _ _ hw⟩))
  · exact Or.inr (Or.inr (Or.inr ⟨hq, knock_zero_mono _ _ _ _ _ _ _ _ hw⟩))

/-- A westward knock is the eastward knock from the west cell. -/
theorem knock_W_eq_E (g : Grid) (x y : Int) :
    knock_down g x y (x - 1) y = knock_down g (x - 1) y x y := by
  funext b a
  unfold knock_down
  rw [if_neg (by intro h; omega), if_neg (by intro h; omega),
    if_neg (by intro h; omega), if_pos ⟨rfl, rfl⟩,
    if_neg (by intro h; omega), if_pos (by constructor <;> omega)]
  by_cases h1 : b = y ∧ a = x
  · obtain ⟨rfl, rfl⟩ := h1
    rw [updCell_ne _ _ _ _ (by intro h; omega), updCell_self, updCell_self,
      updCell_ne _ _ _ _ (by intro h; omega)]
  · by_cases h2 : b = y ∧ a = x - 1
    · obtain ⟨rfl, rfl⟩ := h2
      rw [updCell_self, updCell_ne _ _ _ _ (by intro h; omega),
        updCell_ne _ _ _ _ (by intro h; omega), updCell_self]
    · rw [updCell_ne _ _ _ _ h2, updCell_ne _ _ _ _ h1,
        updCell_ne _ _ _ _ h1, updCell_ne _ _ _ _ h2]

/-- A northward knock is the southward knock from the north cell. -/
theorem knock_N_eq_S (g : Grid) (x y : Int) :
    knock_down g x y x (y - 1) = knock_down g x (y - 1) x y := by
  funext b a
  unfold knock_down
  rw [if_pos ⟨rfl, rfl⟩, if_neg (by intro h; omega), if_neg (by intro h; omega),
    if_pos (by constructor <;> omega)]
  by_cases h1 : b = y ∧ a = x
  · obtain ⟨rfl, rfl⟩ := h1
    rw [updCell_ne _ _ _ _ (by intro h; omega), updCell_self, updCell_self,
      updCell_ne _ _ _ _ (by intro h; omega)]
  · by_cases h2 : b = y - 1 ∧ a = x
    · obtain ⟨rfl, rfl⟩ := h2
      rw [updCell_self, updCell_ne _ _ _ _ (by intro h; omega),
        updCell_ne _ _ _ _ (by intro h; omega), updCell_self]
    · rw [updCell_ne _ _ _ _ h2, updCell_ne _ _ _ _ h1,
        updCell_ne _ _ _ _ h1, updCell_ne _ _ _ _ h2]

/-- Effect of an eastward knock on the `E` bit of each cell. -/
theorem knock_E_bitE (g : Grid) (x y b a : Int) :
    ((knock_down g x y (x + 1) y) b a).walls &&& WALL_E
      = if b = y ∧ a = x then 0 else (g b a).walls &&& WALL_E := by
  split_ifs with h
  · obtain ⟨rfl, rfl⟩ := h
    rw [knock_E_src]
    exact and_mask_zero _ _ _ (by decide)
  · by_cases h2 : b = y ∧ a = x + 1
    · obtain ⟨rfl, rfl⟩ := h2
      rw [knock_E_tgt]
      exact and_mask_keep _ _ _ (by decide)
    · rw [knock_down_other g x y _ _ h h2]

/-- Effect of an eastward knock on the `W` bit of each cell. -/
theorem knock_E_bitW (g : Grid) (x y b a : Int) :
    ((knock_down g x y (x + 1) y) b a).walls &&& WALL_W
      = if b = y ∧ a = x + 1 then 0 else (g b a).walls &&& WALL_W := by
  split_ifs with h
  · obtain ⟨rfl, rfl⟩ := h
    rw [knock_E_tgt]
    exact and_mask_zero _ _ _ (by decide)
  · by_cases h1 : b = y ∧ a = x
    · obtain ⟨rfl, rfl⟩ := h1
      rw [knock_E_src]
      exact and_mask_keep _ _ _ (by decide)
    · rw [knock_down_other g x y _ _ h1 h]

/-- An eastward knock does not touch bits kept by both of its masks. -/
theorem knock_E_bit_keep (g : Grid) (x y b a : Int) (bit : Nat)
    (hk1 : (255 ^^^ WALL_E) &&& bit = bit) (hk2 : (255 ^^^ WALL_W) &&& bit = bit) :
    ((knock_down g x y (x + 1) y) b a).walls &&& bit = (g b a).walls &&& bit := by
  by_cases h1 : b = y ∧ a = x
  · obtain ⟨rfl, rfl⟩ := h1
    rw [knock_E_src]
    exact and_mask_keep _ _ _ hk1
  · by_cases h2 : b = y ∧ a = x + 1
    · obtain ⟨rfl, rfl⟩ := h2
      rw [knock_E_tgt]
      exact and_mask_keep _ _ _ hk2
    · rw [knock_down_other g x y _ _ h1 h2]

/-- Effect of a southward knock on the `S` bit of each cell. -/
theorem knock_S_bitS (g : Grid) (x y b a : Int) :
    ((knock_down g x y x (y + 1)) b a).walls &&& WALL_S
      = if b = y ∧ a = x then 0 else (g b a).walls &&& WALL_S := by
  split_ifs with h
  · obtain ⟨rfl, rfl⟩ := h
    rw [knock_S_src]
    exact and_mask_zero _ _ _ (by decide)
  · by_cases h2 : b = y + 1 ∧ a = x
    · obtain ⟨rfl, rfl⟩ := h2
      rw [knock_S_tgt]
      exact and_mask_keep _ _ _ (by decide)
    · rw [knock_down_other g x y _ _ h h2]

/-- Effect of a southward knock on the `N` bit of each cell. -/
theorem knock_S_bitN (g : Grid) (x y b a : Int) :
    ((knock_down g x y x (y + 1)) b a).walls &&& WALL_N
      = if b = y + 1 ∧ a = x then 0 else (g b a).walls &&& WALL_N := by
  split_ifs with h
  · obtain ⟨rfl, rfl⟩ := h
    rw [knock_S_tgt]
    exact and_mask_zero _ _ _ (by decide)
  · by_cases h1 : b = y ∧ a = x
    · obtain ⟨rfl, rfl⟩ := h1
      rw [knock_S_src]
      exact and_mask_keep _ _ _ (by decide)
    · rw [knock_down_other g x y _ _ h1 h]

/-- A southward knock does not touch bits kept by both of its masks. -/
theorem knock_S_bit_keep (g : Grid) (x y b a : Int) (bit : Nat)
    (hk1 : (255 ^^^ WALL_S) &&& bit = bit) (hk2 : (255 ^^^ WALL_N) &&& bit = bit) :
    ((knock_down g x y x (y + 1)) b a).walls &&& bit = (g b a).walls &&& bit := by
  by_cases h1 : b = y ∧ a = x
  · obtain ⟨rfl, rfl⟩ := h1
    rw [knock_S_src]
    exact and_mask_keep _ _ _ hk1
  · by_cases h2 : b = y + 1 ∧ a = x
    · obtain ⟨rfl, rfl⟩ := h2
      rw [knock_S_tgt]
      exact and_mask_keep _ _ _ hk2
    · rw [knock_down_other g x y _ _ h1 h2]

/-- An eastward knock preserves wall reciprocity. -/
theorem recipHV_knock_E {W H : Nat} {g : Grid} (x y : Int) (h : RecipHV W H g) :
    RecipHV W H (knock_down g x y (x + 1) y) := by
  constructor
  · intro u v hu hv
    rw [knock_E_bitE, knock_E_bitW]
    split_ifs with ha hb hb
    · simp
    · exact absurd ⟨ha.1, by omega⟩ hb
    · exact absurd ⟨hb.1, by omega⟩ ha
    · exact h.1 u v hu hv
  · intro u v hu hv
    rw [knock_E_bit_keep g x y v u WALL_S (by decide) (by decide),
      knock_E_bit_keep g x y (v + 1) u WALL_N (by decide) (by decide)]
    exact h.2 u v hu hv

/-- A southward knock preserves wall reciprocity. -/
theorem recipHV_knock_S {W H : Nat} {g : Grid} (x y : Int) (h : RecipHV W H g) :
    RecipHV W H (knock_down g x y x (y + 1)) := by
  constructor
  · intro u v hu hv
    rw [knock_S_bit_keep g x y v u WALL_E (by decide) (by decide),
      knock_S_bit_keep g x y v (u + 1) WALL_W (by decide) (by decide)]
    exact h.1 u v hu hv
  · intro u v hu hv
    rw [knock_S_bitS, knock_S_bitN]
    split_ifs with ha hb hb
    · simp
    · exact absurd ⟨by omega, ha.2⟩ hb
    · exact absurd ⟨by omega, hb.2⟩ ha
    · exact h.2 u v hu hv

/-- An eastward knock on a wall that is present adds exactly one passage. -/
theorem passageCount_knock_E {W H : Nat} {g : Grid} {x y : Int}
    (h1 : in_bounds W H x y) (h2 : in_bounds W H (x + 1) y)
    (hset : (g y x).walls &&& WALL_E ≠ 0) :
    passageCount W H (knock_down g x y (x + 1) y) = passageCount W H g + 1 := by
  unfold passageCount
  have eS : (cellFinset W H).filter
        (fun p : Int × Int => p.2 + 1 < (H : Int)
          ∧ ((knock_down g x y (x + 1) y) p.2 p.1).walls &&& WALL_S = 0)
      = (cellFinset W H).filter
        (fun p : Int × Int => p.2 + 1 < (H : Int) ∧ (g p.2 p.1).walls &&& WALL_S = 0) :=
    Finset.filter_congr (fun p _ => by
      rw [knock_E_bit_keep g x y p.2 p.1 WALL_S (by decide) (by decide)])
  have eE : ((cellFinset W H).filter
        (fun p : Int × Int => p.1 + 1 < (W : Int)
          ∧ ((knock_down g x y (x + 1) y) p.2 p.1).walls &&& WALL_E = 0)).card
      = ((cellFinset W H).filter
        (fun p : Int × Int => p.1 + 1 < (W : Int)
          ∧ (g p.2 p.1).walls &&& WALL_E = 0)).card + 1 := by
    apply filter_card_add_one (a := ((x : Int), (y : Int)))
    · exact mem_cellFinset.mpr h1
    · intro hcon
      exact hset hcon.2
    · refine ⟨h2.2.1, ?_⟩
      rw [knock_E_bitE, if_pos ⟨rfl, rfl⟩]
    · intro b _ hb
      rw [knock_E_bitE, if_neg (by
        intro hcon
        exact hb (Prod.ext hcon.2 hcon.1))]
  rw [eS, eE]
  omega

/-- A southward knock on a wall that is present adds exactly one passage. -/
theorem passageCount_knock_S {W H : Nat} {g : Grid} {x y : Int}
    (h1 : in_bounds W H x y) (h2 : in_bounds W H x (y + 1))
    (hset : (g y x).walls &&& WALL_S ≠ 0) :
    passageCount W H (knock_down g x y x (y + 1)) = passageCount W H g + 1 := by
  unfold passageCount
  have eE : (cellFinset W H).filter
        (fun p : Int × Int => p.1 + 1 < (W : Int)
          ∧ ((knock_down g x y x (y + 1)) p.2 p.1).walls &&& WALL_E = 0)
      = (cellFinset W H).filter
        (fun p : Int × Int => p.1 + 1 < (W : Int) ∧ (g p.2 p.1).walls &&& WALL_E = 0) :=
    Finset.filter_congr (fun p _ => by
      rw [knock_S_bit_keep g x y p.2 p.1 WALL_E (by decide) (by decide)])
  have eS : ((cellFinset W H).filter
        (fun p : Int × Int => p.2 + 1 < (H : Int)
          ∧ ((knock_down g x y x (y + 1)) p.2 p.1).walls &&& WALL_S = 0)).card
      = ((cellFinset W H).filter
        (fun p : Int × Int => p.2 + 1 < (H : Int)
          ∧ (g p.2 p.1).walls &&& WALL_S = 0)).card + 1 := by
    apply filter_card_add_one (a := ((x : Int), (y : Int)))
    · exact mem_cellFinset.mpr h1
    · intro hcon
      exact hset hcon.2
    · refine ⟨h2.2.2.2, ?_⟩
      rw [knock_S_bitS, if_pos ⟨rfl, rfl⟩]
    · intro b _ hb
      rw [knock_S_bitS, if_neg (by
        intro hcon
        exact hb (Prod.ext hcon.2 hcon.1))]
  rw [eE, eS]
  omega

/-- Carving into a fresh cell raises the visited count by one. -/
theorem visitedCount_push {W H : Nat} {g : Grid} {x y : Int} {n : Int × Int}
    (hinb : in_bounds W H n.1 n.2) (hfresh : (g n.2 n.1).visited = false) :
    visitedCount W H
        (updCell (knock_down g x y n.1 n.2) n.1 n.2 (fun c => ⟨c.walls, true⟩))
      = visitedCount W H g + 1 := by
  apply filter_card_add_one (a := n) (mem_cellFinset.mpr hinb)
  · rw [hfresh]
    simp
  · rw [push_visited, if_pos ⟨rfl, rfl⟩]
  · intro b _ hb
    rw [push_visited, if_neg (by
      intro hcon
      exact hb (Prod.ext hcon.2 hcon.1))]

/-- Any passage of the grid after an eastward knock is an old passage or the
newly carved pair. -/
theorem openAdj_knock_E_cases {W H : Nat} {g : Grid} {x y : Int} {p q : Int × Int}
    (h : openAdj W H (knock_down g x y (x + 1) y) p q) :
    openAdj W H g p q ∨ (p = (x, y) ∧ q = (x + 1, y)) ∨ (p = (x + 1, y) ∧ q = (x, y)) := by
  obtain ⟨h1, h2, h3⟩ := h
  rcases h3 with ⟨hq, hw⟩ | ⟨hq, hw⟩ | ⟨hq, hw⟩ | ⟨hq, hw⟩
  · rw [knock_E_bit_keep g x y p.2 p.1 WALL_N (by decide) (by decide)] at hw
    exact Or.inl ⟨h1, h2, Or.inl ⟨hq, hw⟩⟩
  · rw [knock_E_bitE] at hw
    by_cases hp : p.2 = y ∧ p.1 = x
    · refine Or.inr (Or.inl ⟨Prod.ext hp.2 hp.1, ?_⟩)
      rw [hq, hp.1, hp.2]
    · rw [if_neg hp] at hw
      exact Or.inl ⟨h1, h2, Or.inr (Or.inl ⟨hq, hw⟩)⟩
  · rw [knock_E_bit_keep g x y p.2 p.1 WALL_S (by decide) (by decide)] at hw
    exact Or.inl ⟨h1, h2, Or.inr (Or.inr (Or.inl ⟨hq, hw⟩))⟩
  · rw [knock_E_bitW] at hw
    by_cases hp : p.2 = y ∧ p.1 = x + 1
    · refine Or.inr (Or.inr ⟨Prod.ext hp.2 hp.1, ?_⟩)
      rw [hq, hp.1, hp.2]
      exact Prod.ext (by omega) rfl
    · rw [if_neg hp] at hw
      exact Or.inl ⟨h1, h2, Or.inr (Or.inr (Or.inr ⟨hq, hw⟩))⟩

/-- Any passage of the grid after a southward knock is an old passage or the
newly carved pair. -/
theorem openAdj_knock_S_cases {W H : Nat} {g : Grid} {x y : Int} {p q : Int × Int}
    (h : openAdj W H (knock_down g x y x (y + 1)) p q) :
    openAdj W H g p q ∨ (p = (x, y) ∧ q = (x, y + 1)) ∨ (p = (x, y + 1) ∧ q = (x, y)) := by
  obtain ⟨h1, h2, h3⟩ := h
  rcases h3 with ⟨hq, hw⟩ | ⟨hq, hw⟩ | ⟨hq, hw⟩ | ⟨hq, hw⟩
  · rw [knock_S_bitN] at hw
    by_cases hp : p.2 = y + 1 ∧ p.1 = x
    · refine Or.inr (Or.inr ⟨Prod.ext hp.2 hp.1, ?_⟩)
      rw [hq, hp.1, hp.2]
      exact Prod.ext rfl (by omega)
    · rw [if_neg hp] at hw
      exact Or.inl ⟨h1, h2, Or.inl ⟨hq, hw⟩⟩
  · rw [knock_S_bit_keep g x y p.2 p.1 WALL_E (by decide) (by decide)] at hw
    exact Or.inl ⟨h1, h2, Or.inr (Or.inl ⟨hq, hw⟩)⟩
  · rw [knock_S_bitS] at hw
    by_cases hp : p.2 = y ∧ p.1 = x
    · refine Or.inr (Or.inl ⟨Prod.ext hp.2 hp.1, ?_⟩)
      rw [hq, hp.1, hp.2]
    · rw [if_neg hp] at hw
      exact Or.inl ⟨h1, h2, Or.inr (Or.inr (Or.inl ⟨hq, hw⟩))⟩
  · rw [knock_S_bit_keep g x y p.2 p.1 WALL_W (by decide) (by decide)] at hw
    exact Or.inl ⟨h1, h2, Or.inr (Or.inr (Or.inr ⟨hq, hw⟩))⟩

/-- A fully walled cell has no outgoing passage. -/
theorem openAdj_from_fresh {W H : Nat} {g : Grid} {n q : Int × Int}
    (hfr : (g n.2 n.1).walls = 15) : ¬ openAdj W H g n q := by
  rintro ⟨-, -, h⟩
  rcases h with ⟨-, hw⟩ | ⟨-, hw⟩ | ⟨-, hw⟩ | ⟨-, hw⟩ <;> rw [hfr] at hw <;>
    simp [WALL_N, WALL_E, WALL_S, WALL_W] at hw

/-- Under reciprocity, a fully walled cell has no incoming passage either. -/
theorem openAdj_to_fresh {W H : Nat} {g : Grid} (hrec : RecipHV W H g)
    {p n : Int × Int} (hfr : (g n.2 n.1).walls = 15) : ¬ openAdj W H g p n := by
  rintro ⟨h1, h2, h⟩
  rcases h with ⟨hq, hw⟩ | ⟨hq, hw⟩ | ⟨hq, hw⟩ | ⟨hq, hw⟩
  · have h2a : in_bounds W H p.1 (p.2 - 1) := by rw [hq] at h2; exact h2
    have hfr2 : (g (p.2 - 1) p.1).walls = 15 := by rw [hq] at hfr; exact hfr
    have hiff := hrec.2 p.1 (p.2 - 1) h2a (by simpa using h1)
    simp only [sub_add_cancel] at hiff
    have hz := hiff.mpr hw
    rw [hfr2] at hz
    simp [WALL_S] at hz
  · have h2a : in_bounds W H (p.1 + 1) p.2 := by rw [hq] at h2; exact h2
    have hfr2 : (g p.2 (p.1 + 1)).walls = 15 := by rw [hq] at hfr; exact hfr
    have hz := (hrec.1 p.1 p.2 h1 h2a).mp hw
    rw [hfr2] at hz
    simp [WALL_W] at hz
  · have h2a : in_bounds W H p.1 (p.2 + 1) := by rw [hq] at h2; exact h2
    have hfr2 : (g (p.2 + 1) p.1).walls = 15 := by rw [hq] at hfr; exact hfr
    have hz := (hrec.2 p.1 p.2 h1 h2a).mp hw
    rw [hfr2] at hz
    simp [WALL_N] at hz
  · have h2a : in_bounds W H (p.1 - 1) p.2 := by rw [hq] at h2; exact h2
    have hfr2 : (g p.2 (p.1 - 1)).walls = 15 := by rw [hq] at hfr; exact hfr
    have hiff := hrec.1 (p.1 - 1) p.2 h2a (by simpa using h1)
    simp only [sub_add_cancel] at hiff
    have hz := hiff.mpr hw
    rw [hfr2] at hz
    simp [WALL_E] at hz

theorem passageCount_knock_Ez {W H : Nat} {g : Grid} {x y z : Int}
    (hz : z = x + 1) (h1 : in_bounds W H x y) (h2 : in_bounds W H z y)
    (hset : (g y x).walls &&& WALL_E ≠ 0) :
    passageCount W H (knock_down g x y z y) = passageCount W H g + 1 := by
  subst hz
  exact passageCount_knock_E h1 h2 hset

theorem passageCount_knock_Sz {W H : Nat} {g : Grid} {x y z : Int}
    (hz : z = y + 1) (h1 : in_bounds W H x y) (h2 : in_bounds W H x z)
    (hset : (g y x).walls &&& WALL_S ≠ 0) :
    passageCount W H (knock_down g x y x z) = passageCount W H g + 1 := by
  subst hz
  exact passageCount_knock_S h1 h2 hset

theorem recipHV_knock_Ez {W H : Nat} {g : Grid} {x y z : Int} (hz : z = x + 1)
    (h : RecipHV W H g) : RecipHV W H (knock_down g x y z y) := by
  subst hz
  exact recipHV_knock_E x y h

theorem recipHV_knock_Sz {W H : Nat} {g : Grid} {x y z : Int} (hz : z = y + 1)
    (h : RecipHV W H g) : RecipHV W H (knock_down g x y x z) := by
  subst hz
  exact recipHV_knock_S x y h

theorem openAdj_knock_Ez_cases {W H : Nat} {g : Grid} {x y z : Int}
    {p q : Int × Int} (hz : z = x + 1)
    (h : openAdj W H (knock_down g x y z y) p q) :
    openAdj W H g p q ∨ (p = (x, y) ∧ q = (z, y)) ∨ (p = (z, y) ∧ q = (x, y)) := by
  subst hz
  exact openAdj_knock_E_cases h

theorem openAdj_knock_Sz_cases {W H : Nat} {g : Grid} {x y z : Int}
    {p q : Int × Int} (hz : z = y + 1)
    (h : openAdj W H (knock_down g x y x z) p q) :
    openAdj W H g p q ∨ (p = (x, y) ∧ q = (x, z)) ∨ (p = (x, z) ∧ q = (x, y)) := by
  subst hz
  exact openAdj_knock_S_cases h

theorem knock_Ez_bitE (g : Grid) {x z : Int} (y b a : Int) (hz : z = x + 1) :
    ((knock_down g x y z y) b a).walls &&& WALL_E
      = if b = y ∧ a = x then 0 else (g b a).walls &&& WALL_E := by
  subst hz
  exact knock_E_bitE g x y b a

theorem knock_Ez_bitW (g : Grid) {x z : Int} (y b a : Int) (hz : z = x + 1) :
    ((knock_down g x y z y) b a).walls &&& WALL_W
      = if b = y ∧ a = z then 0 else (g b a).walls &&& WALL_W := by
  subst hz
  exact knock_E_bitW g x y b a

theorem knock_Sz_bitS (g : Grid) {y z : Int} (x b a : Int) (hz : z = y + 1) :
    ((knock_down g x y x z) b a).walls &&& WALL_S
      = if b = y ∧ a = x then 0 else (g b a).walls &&& WALL_S := by
  subst hz
  exact knock_S_bitS g x y b a

theorem knock_Sz_bitN (g : Grid) {y z : Int} (x b a : Int) (hz : z = y + 1) :
    ((knock_down g x y x z) b a).walls &&& WALL_N
      = if b = z ∧ a = x then 0 else (g b a).walls &&& WALL_N := by
  subst hz
  exact knock_S_bitN g x y b a

/-- Everything the push step of the generator needs to know about the grid
after `knock_down` into a fresh neighbour `n` of `(x, y)`: the passage count
went up by one, reciprocity is preserved, the only new passages are the carved
pair, and the carved passage is open from the source side. -/
theorem knock_push_facts {W H : Nat} {g : Grid} {x y : Int} {n : Int × Int}
    (hd : ∃ d ∈ nbr_deltas, n = (x + d.1, y + d.2))
    (hc : in_bounds W H x y) (hn : in_bounds W H n.1 n.2)
    (hfr : (g n.2 n.1).walls = 15) (hrec : RecipHV W H g) :
    passageCount W H (knock_down g x y n.1 n.2) = passageCount W H g + 1 ∧
    RecipHV W H (knock_down g x y n.1 n.2) ∧
    (∀ p q, openAdj W H (knock_down g x y n.1 n.2) p q →
      openAdj W H g p q ∨ (p = (x, y) ∧ q = n) ∨ (p = n ∧ q = (x, y))) ∧
    openAdj W H (knock_down g x y n.1 n.2) (x, y) n := by
  obtain ⟨d, hdmem, hdef⟩ := hd
  simp only [nbr_deltas, List.mem_cons, List.not_mem_nil, or_false] at hdmem
  rcases hdmem with rfl | rfl | rfl | rfl
  · -- north: n = (x, y - 1)
    have hn1 : n = (x, y - 1) := by
      rw [hdef, Prod.ext_iff]
      constructor <;> simp <;> omega
    rw [hn1] at hn hfr ⊢
    dsimp only
    have hn2 : in_bounds W H x (y - 1) := hn
    have hfr2 : (g (y - 1) x).walls = 15 := hfr
    have hz : y = (y - 1) + 1 := by ring
    have hset : (g (y - 1) x).walls &&& WALL_S ≠ 0 := by rw [hfr2]; decide
    rw [knock_N_eq_S]
    refine ⟨passageCount_knock_Sz hz hn2 hc hset,
      recipHV_knock_Sz hz hrec, ?_, ?_⟩
    · intro p q hpq
      rcases openAdj_knock_Sz_cases hz hpq with h | ⟨hp, hq⟩ | ⟨hp, hq⟩
      · exact Or.inl h
      · exact Or.inr (Or.inr ⟨hp, hq⟩)
      · exact Or.inr (Or.inl ⟨hp, hq⟩)
    · refine ⟨hc, hn2, Or.inl ⟨rfl, ?_⟩⟩
      dsimp only
      rw [knock_Sz_bitN g x y x hz, if_pos ⟨rfl, rfl⟩]
  · -- east: n = (x + 1, y)
    have hn1 : n = (x + 1, y) := by
      rw [hdef, Prod.ext_iff]
      constructor <;> simp
    rw [hn1] at hn hfr ⊢
    dsimp only
    have hn2 : in_bounds W H (x + 1) y := hn
    have hfr2 : (g y (x + 1)).walls = 15 := hfr
    have hset : (g y x).walls &&& WALL_E ≠ 0 := by
      intro hcon
      have := (hrec.1 x y hc hn2).mp hcon
      rw [hfr2] at this
      simp [WALL_W] at this
    refine ⟨passageCount_knock_Ez rfl hc hn2 hset,
      recipHV_knock_Ez rfl hrec, ?_, ?_⟩
    · intro p q hpq
      rcases openAdj_knock_Ez_cases rfl hpq with h | ⟨hp, hq⟩ | ⟨hp, hq⟩
      · exact Or.inl h
      · exact Or.inr (Or.inl ⟨hp, hq⟩)
      · exact Or.inr (Or.inr ⟨hp, hq⟩)
    · refine ⟨hc, hn2, Or.inr (Or.inl ⟨rfl, ?_⟩)⟩
      dsimp only
      rw [knock_Ez_bitE g y y x rfl, if_pos ⟨rfl, rfl⟩]
  · -- south: n = (x, y + 1)
    have hn1 : n = (x, y + 1) := by
      rw [hdef, Prod.ext_iff]
      constructor <;> simp
    rw [hn1] at hn hfr ⊢
    dsimp only
    have hn2 : in_bounds W H x (y + 1) := hn
    have hfr2 : (g (y + 1) x).walls = 15 := hfr
    have hset : (g y x).walls &&& WALL_S ≠ 0 := by
      intro hcon
      have := (hrec.2 x y hc hn2).mp hcon
      rw [hfr2] at this
      simp [WALL_N] at this
    refine ⟨passageCount_knock_Sz rfl hc hn2 hset,
      recipHV_knock_Sz rfl hrec, ?_, ?_⟩
    · intro p q hpq
      rcases openAdj_knock_Sz_cases rfl hpq with h | ⟨hp, hq⟩ | ⟨hp, hq⟩
      · exact Or.inl h
      · exact Or.inr (Or.inl ⟨hp, hq⟩)
      · exact Or.inr (Or.inr ⟨hp, hq⟩)
    · refine ⟨hc, hn2, Or.inr (Or.inr (Or.inl ⟨rfl, ?_⟩))⟩
      dsimp only
      rw [knock_Sz_bitS g x y x rfl, if_pos ⟨rfl, rfl⟩]
  · -- west: n = (x - 1, y)
    have hn1 : n = (x - 1, y) := by
      rw [hdef, Prod.ext_iff]
      constructor <;> simp <;> omega
    rw [hn1] at hn hfr ⊢
    dsimp only
    have hn2 : in_bounds W H (x - 1) y := hn
    have hfr2 : (g y (x - 1)).walls = 15 := hfr
    have hz : x = (x - 1) + 1 := by ring
    have hset : (g y (x - 1)).walls &&& WALL_E ≠ 0 := by rw [hfr2]; decide
    rw [knock_W_eq_E]
    refine ⟨passageCount_knock_Ez hz hn2 hc hset,
      recipHV_knock_Ez hz hrec, ?_, ?_⟩
    · intro p q hpq
      rcases openAdj_knock_Ez_cases hz hpq with h | ⟨hp, hq⟩ | ⟨hp, hq⟩
      · exact Or.inl h
      · exact Or.inr (Or.inr ⟨hp, hq⟩)
      · exact Or.inr (Or.inl ⟨hp, hq⟩)
    · refine ⟨hc, hn2, Or.inr (Or.inr (Or.inr ⟨rfl, ?_⟩))⟩
      dsimp only
      rw [knock_Ez_bitW g y y x hz, if_pos ⟨rfl, rfl⟩]

/-- The invariant holds right after marking and pushing the start cell on a
`maze_init` grid. -/
theorem genInv_init {W H : Nat} {sx sy : Int} (hs : in_bounds W H sx sy) :
    GenInv W H (sx, sy) (updCell maze_init sx sy (fun c => ⟨c.walls, true⟩))
      [(sx, sy)] := by
  set g0 := updCell maze_init sx sy (fun c => ⟨c.walls, true⟩) with hg0
  have hvis : ∀ b a, (g0 b a).visited = if b = sy ∧ a = sx then true else false := by
    intro b a
    by_cases h : b = sy ∧ a = sx
    · obtain ⟨rfl, rfl⟩ := h
      rw [hg0, updCell_self, if_pos ⟨rfl, rfl⟩]
    · rw [hg0, updCell_ne _ _ _ _ h, if_neg h]
      rfl
  have hwalls : ∀ b a, (g0 b a).walls = 15 := by
    intro b a
    by_cases h : b = sy ∧ a = sx
    · obtain ⟨rfl, rfl⟩ := h
      rw [hg0, updCell_self]
      rfl
    · rw [hg0, updCell_ne _ _ _ _ h]
      rfl
  have hpair : ∀ p : Int × Int, (g0 p.2 p.1).visited = true → p = (sx, sy) := by
    intro p hp
    rw [hvis] at hp
    split_ifs at hp with hc
    exact Prod.ext hc.2 hc.1
  refine ⟨?_, by simp, ?_, ?_, ?_, ?_, fun p _ _ => hwalls p.2 p.1, ?_, ?_, ?_⟩
  · intro p hp
    rw [List.mem_singleton] at hp
    subst hp
    exact hs
  · intro p hp
    rw [List.mem_singleton] at hp
    subst hp
    rw [hvis, if_pos ⟨rfl, rfl⟩]
  · rw [hvis, if_pos ⟨rfl, rfl⟩]
  · intro p hpin hpvis hpnot d hd hdin
    exact absurd ((hpair p hpvis) ▸ List.mem_singleton_self _) hpnot
  · intro p hpin hpvis
    rw [hpair p hpvis]
  · constructor <;> intro u v hu hv <;> rw [hwalls, hwalls] <;> decide
  · have hzero : passageCount W H g0 = 0 := by
      unfold passageCount
      rw [Finset.filter_false_of_mem, Finset.filter_false_of_mem]
      · rfl
      · intro p _ hcon
        rw [hwalls] at hcon
        exact absurd hcon.2 (by decide)
      · intro p _ hcon
        rw [hwalls] at hcon
        exact absurd hcon.2 (by decide)
    have hone : visitedCount W H g0 = 1 := by
      unfold visitedCount
      have : (cellFinset W H).filter (fun p => (g0 p.2 p.1).visited = true)
          = {((sx : Int), (sy : Int))} := by
        ext q
        simp only [Finset.mem_filter, Finset.mem_singleton]
        constructor
        · rintro ⟨-, hq⟩
          exact hpair q hq
        · rintro rfl
          exact ⟨mem_cellFinset.mpr hs, by rw [hvis, if_pos ⟨rfl, rfl⟩]⟩
      rw [this, Finset.card_singleton]
    rw [hzero, hone]
  · exact ⟨id, fun _ => 0, fun p q h => absurd h (openAdj_from_fresh (hwalls p.2 p.1))⟩

/-- Popping a cell with no unvisited neighbours preserves the invariant. -/
theorem genInv_pop {W H : Nat} {s : Int × Int} {g : Grid} {x y : Int}
    {rest : List (Int × Int)} (hInv : GenInv W H s g ((x, y) :: rest))
    (hns : (unvisited_neighbors W H g x y).length = 0) :
    GenInv W H s g rest := by
  have hnil : unvisited_neighbors W H g x y = [] := List.length_eq_zero.mp hns
  have hnbrs : ∀ d ∈ nbr_deltas, in_bounds W H (x + d.1) (y + d.2) →
      (g (y + d.2) (x + d.1)).visited = true := by
    intro d hd hbnd
    by_contra hvis
    have : ((x + d.1, y + d.2) : Int × Int) ∈ unvisited_neighbors W H g x y := by
      unfold unvisited_neighbors
      rw [List.mem_filter]
      refine ⟨List.mem_map_of_mem _ hd, ?_⟩
      simp only [Bool.and_eq_true, decide_eq_true_eq, Bool.not_eq_eq_eq_not,
        Bool.not_true]
      exact ⟨hbnd, Bool.not_eq_true _ |>.mp hvis⟩
    rw [hnil] at this
    exact absurd this (List.not_mem_nil _)
  refine ⟨fun p hp => hInv.stack_inb p (List.mem_cons_of_mem _ hp),
    hInv.stack_nodup.of_cons,
    fun p hp => hInv.stack_vis p (List.mem_cons_of_mem _ hp),
    hInv.start_vis, ?_, hInv.reach, hInv.fresh, hInv.recip, hInv.count, hInv.parent⟩
  intro p hpin hpvis hpnot d hd hdin
  by_cases hpc : p = ((x : Int), (y : Int))
  · subst hpc
    exact hnbrs d hd hdin
  · refine hInv.closure p hpin hpvis ?_ d hd hdin
    rw [List.mem_cons]
    rintro (rfl | hmem)
    · exact hpc rfl
    · exact hpnot hmem

/-- Carving into a fresh neighbour and pushing it preserves the invariant. -/
theorem genInv_push {W H : Nat} {s : Int × Int} {g : Grid} {x y : Int}
    {rest : List (Int × Int)} (hInv : GenInv W H s g ((x, y) :: rest))
    {n : Int × Int} (hn : n ∈ unvisited_neighbors W H g x y) :
    GenInv W H s
      (updCell (knock_down g x y n.1 n.2) n.1 n.2 (fun c => ⟨c.walls, true⟩))
      (n :: (x, y) :: rest) := by
  obtain ⟨hd, hninb, hnvis⟩ := mem_unvisited_neighbors hn
  have hcinb : in_bounds W H x y := hInv.stack_inb (x, y) (List.mem_cons_self _ _)
  have hcvis : (g y x).visited = true := hInv.stack_vis (x, y) (List.mem_cons_self _ _)
  have hfr : (g n.2 n.1).walls = 15 := hInv.fresh n hninb hnvis
  obtain ⟨hcount, hrec2, hcases, hnew⟩ := knock_push_facts hd hcinb hninb hfr hInv.recip
  set g2 := updCell (knock_down g x y n.1 n.2) n.1 n.2 (fun c => ⟨c.walls, true⟩)
    with hg2
  have hw2 : ∀ b a, (g2 b a).walls = ((knock_down g x y n.1 n.2) b a).walls :=
    fun b a => setvis_walls _ _ _ _ _
  have hvis2 : ∀ b a, (g2 b a).visited
      = if b = n.2 ∧ a = n.1 then true else (g b a).visited :=
    push_visited g x y n
  have hvmono : ∀ p : Int × Int, (g p.2 p.1).visited = true →
      (g2 p.2 p.1).visited = true := by
    intro p hp
    rw [hvis2]
    split_ifs
    · rfl
    · exact hp
  have hvother : ∀ p : Int × Int, p ≠ n → (g2 p.2 p.1).visited = (g p.2 p.1).visited := by
    intro p hp
    rw [hvis2, if_neg (fun hcon => hp (Prod.ext hcon.2 hcon.1))]
  have hne_cn : ((x, y) : Int × Int) ≠ n := by
    intro hcon
    rw [← hcon] at hnvis
    dsimp only at hnvis
    rw [hcvis] at hnvis
    cases hnvis
  have hn_notmem : n ∉ ((x, y) : Int × Int) :: rest := by
    intro hmem
    rw [hInv.stack_vis n hmem] at hnvis
    cases hnvis
  have hoadj_congr : ∀ u v, openAdj W H (knock_down g x y n.1 n.2) u v
      ↔ openAdj W H g2 u v :=
    fun u v => openAdj_walls_congr (fun b a => (hw2 b a).symm) u v
  have hlift : ∀ q, Relation.ReflTransGen (openAdj W H g) s q →
      Relation.ReflTransGen (openAdj W H g2) s q := by
    intro q hq
    exact Relation.ReflTransGen.mono
      (fun u v huv => (hoadj_congr u v).mp (openAdj_mono_knock x y n.1 n.2 huv)) hq
  refine ⟨?_, ?_, ?_, hvmono s hInv.start_vis, ?_, ?_, ?_, ?_, ?_, ?_⟩
  · intro p hp
    rcases List.mem_cons.mp hp with rfl | hp2
    · exact hninb
    · exact hInv.stack_inb p hp2
  · exact List.nodup_cons.mpr ⟨hn_notmem, hInv.stack_nodup⟩
  · intro p hp
    rcases List.mem_cons.mp hp with rfl | hp2
    · rw [hvis2, if_pos ⟨rfl, rfl⟩]
    · exact hvmono p (hInv.stack_vis p hp2)
  · -- closure
    intro p hpin hpvis hpnot d hd hdin
    have hpn : p ≠ n := fun hcon => hpnot (hcon ▸ List.mem_cons_self _ _)
    have hpvg : (g p.2 p.1).visited = true := by
      rw [← hvother p hpn]
      exact hpvis
    have hpnot_old : p ∉ ((x, y) : Int × Int) :: rest :=
      fun hmem => hpnot (List.mem_cons_of_mem _ hmem)
    exact hvmono (p.1 + d.1, p.2 + d.2) (hInv.closure p hpin hpvg hpnot_old d hd hdin)
  · -- reach
    intro p hpin hpvis
    by_cases hpn : p = n
    · subst hpn
      exact Relation.ReflTransGen.tail (hlift _ (hInv.reach (x, y) hcinb hcvis))
        ((hoadj_congr _ _).mp hnew)
    · have hpvg : (g p.2 p.1).visited = true := by
        rw [← hvother p hpn]
        exact hpvis
      exact hlift p (hInv.reach p hpin hpvg)
  · -- fresh
    intro p hpin hpvis
    have hpn : p ≠ n := by
      intro hcon
      rw [hcon, hvis2, if_pos ⟨rfl, rfl⟩] at hpvis
      cases hpvis
    have hpvg : (g p.2 p.1).visited = false := by
      rw [← hvother p hpn]
      exact hpvis
    have hpc : p ≠ ((x, y) : Int × Int) := by
      intro hcon
      rw [hcon] at hpvg
      dsimp only at hpvg
      rw [hcvis] at hpvg
      cases hpvg
    rw [hw2, knock_down_other g x y n.1 n.2
      (fun hcon => hpc (Prod.ext hcon.2 hcon.1))
      (fun hcon => hpn (Prod.ext hcon.2 hcon.1))]
    exact hInv.fresh p hpin hpvg
  · exact (recipHV_walls_congr hw2).mpr hrec2
  · -- count
    have h1 : passageCount W H g2 = passageCount W H g + 1 := by
      rw [passageCount_walls_congr hw2, hcount]
    have h2 : visitedCount W H g2 = visitedCount W H g + 1 :=
      visitedCount_push hninb hnvis
    have h3 := hInv.count
    omega
  · -- parent
    obtain ⟨par, rank, hpar⟩ := hInv.parent
    refine ⟨fun v => if v = n then (x, y) else par v,
      fun v => if v = n then rank (x, y) + 1 else rank v, ?_⟩
    intro p q hpq
    dsimp only
    have hpq2 : openAdj W H (knock_down g x y n.1 n.2) p q := (hoadj_congr p q).mpr hpq
    rcases hcases p q hpq2 with hold | ⟨hp, hq⟩ | ⟨hp, hq⟩
    · have hpn : p ≠ n := fun hcon =>
        absurd (hcon ▸ hold) (openAdj_from_fresh hfr)
      have hqn : q ≠ n := fun hcon =>
        absurd (hcon ▸ hold) (openAdj_to_fresh hInv.recip hfr)
      rcases hpar p q hold with ⟨h1, h2⟩ | ⟨h1, h2⟩
      · refine Or.inl ⟨?_, ?_⟩
        · rw [if_neg hpn]
          exact h1
        · rw [if_neg hqn, if_neg hpn]
          exact h2
      · refine Or.inr ⟨?_, ?_⟩
        · rw [if_neg hqn]
          exact h1
        · rw [if_neg hpn, if_neg hqn]
          exact h2
    · refine Or.inr ⟨?_, ?_⟩
      · rw [hq, if_pos rfl]
        exact hp
      · rw [hp, hq, if_neg hne_cn, if_pos rfl]
        exact Nat.lt_succ_self _
    · refine Or.inl ⟨?_, ?_⟩
      · rw [hp, if_pos rfl]
        exact hq
      · rw [hp, hq, if_neg hne_cn, if_pos rfl]
        exact Nat.lt_succ_self _

theorem genLoop_nil (W H : Nat) (ρ : Nat → Nat) (g : Grid) (k : Nat) :
    genLoop W H ρ g [] k = (g, k) := by
  rw [genLoop]

theorem genLoop_pop (W H : Nat) (ρ : Nat → Nat) (g : Grid) (x y : Int)
    (rest : List (Int × Int)) (k : Nat)
    (hns : (unvisited_neighbors W H g x y).length = 0) :
    genLoop W H ρ g ((x, y) :: rest) k = genLoop W H ρ g rest k := by
  rw [genLoop]
  rw [dif_pos hns]

theorem genLoop_push (W H : Nat) (ρ : Nat → Nat) (g : Grid) (x y : Int)
    (rest : List (Int × Int)) (k : Nat)
    (hns : ¬(unvisited_neighbors W H g x y).length = 0) :
    genLoop W H ρ g ((x, y) :: rest) k
      = genLoop W H ρ
          (updCell
            (knock_down g x y
              ((unvisited_neighbors W H g x y).get
                ⟨ρ k % (unvisited_neighbors W H g x y).length,
                  Nat.mod_lt _ (Nat.pos_of_ne_zero hns)⟩).1
              ((unvisited_neighbors W H g x y).get
                ⟨ρ k % (unvisited_neighbors W H g x y).length,
                  Nat.mod_lt _ (Nat.pos_of_ne_zero hns)⟩).2)
            ((unvisited_neighbors W H g x y).get
              ⟨ρ k % (unvisited_neighbors W H g x y).length,
                Nat.mod_lt _ (Nat.pos_of_ne_zero hns)⟩).1
            ((unvisited_neighbors W H g x y).get
              ⟨ρ k % (unvisited_neighbors W H g x y).length,
                Nat.mod_lt _ (Nat.pos_of_ne_zero hns)⟩).2
            (fun c => ⟨c.walls, true⟩))
          (((unvisited_neighbors W H g x y).get
              ⟨ρ k % (unvisited_neighbors W H g x y).length,
                Nat.mod_lt _ (Nat.pos_of_ne_zero hns)⟩) :: (x, y) :: rest)
          (k + 1) := by
  rw [genLoop]
  simp only [dif_neg hns]

/-- Running the loop from any state satisfying the invariant yields a grid
satisfying the invariant with an empty stack. -/
theorem genLoop_inv (W H : Nat) (ρ : Nat → Nat) (s : Int × Int) :
    ∀ (g : Grid) (stack : List (Int × Int)) (k : Nat),
      GenInv W H s g stack → GenInv W H s (genLoop W H ρ g stack k).1 [] := by
  intro g stack k
  induction g, stack, k using genLoop.induct (W := W) (H := H) (ρ := ρ) with
  | case1 g k =>
    intro h
    rw [genLoop_nil]
    exact h
  | case2 g k x y rest ns hns ih =>
    intro h
    rw [genLoop_pop W H ρ g x y rest k hns]
    exact ih (genInv_pop h hns)
  | case3 g k x y rest ns hns n g2 ih =>
    intro h
    rw [genLoop_push W H ρ g x y rest k hns]
    exact ih (genInv_push h (List.get_mem _ _ _))

/-- With an empty stack, the closure property forces every in-bounds cell to be
visited: walk from the start one axis at a time. -/
theorem genInv_all_visited {W H : Nat} {s : Int × Int} {g : Grid}
    (hInv : GenInv W H s g []) (hs : in_bounds W H s.1 s.2) :
    ∀ p : Int × Int, in_bounds W H p.1 p.2 → (g p.2 p.1).visited = true := by
  have key : ∀ m : Nat, ∀ p : Int × Int, in_bounds W H p.1 p.2 →
      (p.1 - s.1).natAbs + (p.2 - s.2).natAbs = m → (g p.2 p.1).visited = true := by
    intro m
    induction m using Nat.strong_induction_on with
    | _ m ih =>
      intro p hpin hdist
      by_cases hps : p = s
      · rw [hps]
        exact hInv.start_vis
      · have hstep : ∃ (q : Int × Int) (d : Int × Int), d ∈ nbr_deltas ∧
            in_bounds W H q.1 q.2 ∧ (q.1 + d.1, q.2 + d.2) = p ∧
            (q.1 - s.1).natAbs + (q.2 - s.2).natAbs < m := by
          simp only [in_bounds] at hpin hs
          rcases lt_trichotomy p.1 s.1 with hx | hx | hx
          · refine ⟨(p.1 + 1, p.2), (-1, 0), by decide, ?_, ?_, ?_⟩
            · simp only [in_bounds]
              omega
            · exact Prod.ext (by ring) (by ring)
            · simp only []
              omega
          · rcases lt_trichotomy p.2 s.2 with hy | hy | hy
            · refine ⟨(p.1, p.2 + 1), (0, -1), by decide, ?_, ?_, ?_⟩
              · simp only [in_bounds]
                omega
              · exact Prod.ext (by ring) (by ring)
              · simp only []
                omega
            · exact absurd (Prod.ext hx hy) hps
            · refine ⟨(p.1, p.2 - 1), (0, 1), by decide, ?_, ?_, ?_⟩
              · simp only [in_bounds]
                omega
              · exact Prod.ext (by ring) (by ring)
              · simp only []
                omega
          · refine ⟨(p.1 - 1, p.2), (1, 0), by decide, ?_, ?_, ?_⟩
            · simp only [in_bounds]
              omega
            · exact Prod.ext (by ring) (by ring)
            · simp only []
              omega
        obtain ⟨q, d, hdmem, hqin, hqd, hqlt⟩ := hstep
        have hqvis := ih _ hqlt q hqin rfl
        have hres := hInv.closure q hqin hqvis (List.not_mem_nil _) d hdmem
          (by rw [show q.1 + d.1 = p.1 from congrArg Prod.fst hqd,
            show q.2 + d.2 = p.2 from congrArg Prod.snd hqd]; exact hpin)
        rw [show q.1 + d.1 = p.1 from congrArg Prod.fst hqd,
          show q.2 + d.2 = p.2 from congrArg Prod.snd hqd] at hres
        exact hres
  intro p hp
  exact key _ p hp rfl

/-- Master specification of `maze_generate` from a `maze_init` grid: every
in-bounds cell is reachable from the start through passages, the number of
passages is `W*H - 1`, reciprocity holds, every passage joins a cell to its
unique parent (ranks strictly decreasing toward the start), and all visited
flags are clear. -/
theorem maze_generate_spec (W H : Nat) (ρ : Nat → Nat) {sx sy : Int}
    (hs : in_bounds W H sx sy) :
    (∀ p : Int × Int, in_bounds W H p.1 p.2 →
      Relation.ReflTransGen (openAdj W H (maze_generate W H ρ maze_init sx sy))
        (sx, sy) p) ∧
    passageCount W H (maze_generate W H ρ maze_init sx sy) + 1 = W * H ∧
    RecipHV W H (maze_generate W H ρ maze_init sx sy) ∧
    (∃ (par : Int × Int → Int × Int) (rank : Int × Int → Nat),
      ∀ p q, openAdj W H (maze_generate W H ρ maze_init sx sy) p q →
        (q = par p ∧ rank q < rank p) ∨ (p = par q ∧ rank p < rank q)) ∧
    (∀ b a : Int, in_bounds W H a b →
      ((maze_generate W H ρ maze_init sx sy) b a).visited = false) := by
  have hInv0 : GenInv W H (sx, sy)
      (updCell maze_init sx sy (fun c => ⟨c.walls, true⟩)) [(sx, sy)] :=
    genInv_init hs
  have hF := genLoop_inv W H ρ (sx, sy) _ _ 0 hInv0
  set gl := (genLoop W H ρ (updCell maze_init sx sy (fun c => ⟨c.walls, true⟩))
    [(sx, sy)] 0).1 with hgl
  have hall := genInv_all_visited hF hs
  have hgen : maze_generate W H ρ maze_init sx sy = clear_visited W H gl := rfl
  have hwcong : ∀ b a, (gl b a).walls
      = ((maze_generate W H ρ maze_init sx sy) b a).walls := by
    intro b a
    rw [hgen, clear_visited_walls]
  refine ⟨?_, ?_, ?_, ?_, ?_⟩
  · intro p hp
    exact Relation.ReflTransGen.mono
      (fun u v huv => (openAdj_walls_congr hwcong u v).mp huv)
      (hF.reach p hp (hall p hp))
  · have hvc : visitedCount W H gl = W * H := by
      unfold visitedCount
      rw [Finset.filter_true_of_mem (fun p hp => hall p (mem_cellFinset.mp hp)),
        card_cellFinset]
    have hcnt := hF.count
    rw [← passageCount_walls_congr hwcong]
    omega
  · exact (recipHV_walls_congr hwcong).mp hF.recip
  · obtain ⟨par, rank, hpar⟩ := hF.parent
    exact ⟨par, rank, fun p q hpq =>
      hpar p q ((openAdj_walls_congr hwcong p q).mpr hpq)⟩
  · intro b a hin
    rw [hgen]
    exact clear_visited_visited W H gl hin

/-- A passage relates distinct cells. -/
theorem openAdj_ne {W H : Nat} {g : Grid} {p q : Int × Int}
    (h : openAdj W H g p q) : p ≠ q := by
  obtain ⟨-, -, hc⟩ := h
  rintro rfl
  rcases hc with ⟨hq, -⟩ | ⟨hq, -⟩ | ⟨hq, -⟩ | ⟨hq, -⟩ <;>
    (have h1 := congrArg Prod.fst hq
     have h2 := congrArg Prod.snd hq
     dsimp only at h1 h2
     omega)

/-- Cell coordinates of a vertex of the maze graph. -/
def pz {W H : Nat} (p : Fin W × Fin H) : Int × Int := ((p.1 : Int), (p.2 : Int))

theorem pz_inb {W H : Nat} (p : Fin W × Fin H) :
    in_bounds W H (pz p).1 (pz p).2 := by
  unfold pz in_bounds
  dsimp only
  refine ⟨Int.natCast_nonneg _, ?_, Int.natCast_nonneg _, ?_⟩
  · exact_mod_cast p.1.isLt
  · exact_mod_cast p.2.isLt

/-- The vertex of an in-bounds cell. -/
def zf {W H : Nat} (p : Int × Int) (h : in_bounds W H p.1 p.2) : Fin W × Fin H :=
  (⟨p.1.toNat, by obtain ⟨h1, h2, h3, h4⟩ := h; omega⟩,
   ⟨p.2.toNat, by obtain ⟨h1, h2, h3, h4⟩ := h; omega⟩)

theorem pz_zf {W H : Nat} (p : Int × Int) (h : in_bounds W H p.1 p.2) :
    pz (zf p h) = p := by
  obtain ⟨h1, h2, h3, h4⟩ := h
  unfold pz zf
  exact Prod.ext (by simp; omega) (by simp; omega)

theorem pz_inj {W H : Nat} {p q : Fin W × Fin H} (h : pz p = pz q) : p = q := by
  unfold pz at h
  have h1 := congrArg Prod.fst h
  have h2 := congrArg Prod.snd h
  dsimp only at h1 h2
  refine Prod.ext (Fin.ext ?_) (Fin.ext ?_)
  · exact_mod_cast h1
  · exact_mod_cast h2

/-- The maze as a simple graph on the `W*H` cells: two cells are adjacent when
the wall between them is missing. -/
def mazeGraph (W H : Nat) (g : Grid) : SimpleGraph (Fin W × Fin H) where
  Adj p q := openAdj W H g (pz p) (pz q) ∨ openAdj W H g (pz q) (pz p)
  symm := by
    intro p q h
    exact h.symm
  loopless := by
    intro p h
    rcases h with h | h <;> exact openAdj_ne h rfl

/-- The first edge of a non-trivial walk is among its edges. -/
theorem first_edge_mem {V : Type} {G : SimpleGraph V} {a b : V} (p : G.Walk a b)
    (hp : ¬p.Nil) : s(a, p.getVert 1) ∈ p.edges := by
  cases p with
  | nil => simp at hp
  | cons h q =>
    simp only [SimpleGraph.Walk.edges_cons, SimpleGraph.Walk.getVert_cons_succ,
      SimpleGraph.Walk.getVert_zero]
    exact List.mem_cons_self _ _

/-- Every non-empty list has an element of maximal rank. -/
theorem exists_max_rank {V : Type} (rank : V → Nat) :
    ∀ l : List V, l ≠ [] → ∃ u ∈ l, ∀ b ∈ l, rank b ≤ rank u := by
  intro l
  induction l with
  | nil => simp
  | cons a l ih =>
    intro hne
    by_cases hl : l = []
    · subst hl
      exact ⟨a, List.mem_cons_self _ _, by simp⟩
    · obtain ⟨u, hu, hmax⟩ := ih hl
      by_cases hr : rank a ≤ rank u
      · refine ⟨u, List.mem_cons_of_mem _ hu, ?_⟩
        intro b hb
        rcases List.mem_cons.mp hb with rfl | hb2
        · exact hr
        · exact hmax b hb2
      · refine ⟨a, List.mem_cons_self _ _, ?_⟩
        intro b hb
        rcases List.mem_cons.mp hb with rfl | hb2
        · exact le_refl _
        · exact le_trans (hmax b hb2) (le_of_not_le hr)

/-- A graph each of whose edges joins a vertex to its unique parent, with
strictly smaller rank at the parent, has no cycle through any vertex of
maximal rank on the cycle. -/
theorem no_cycle_at_max {V : Type} {G : SimpleGraph V} {par : V → V}
    {rank : V → Nat}
    (hpar : ∀ p q, G.Adj p q →
      (q = par p ∧ rank q < rank p) ∨ (p = par q ∧ rank p < rank q))
    {u : V} (c : G.Walk u u) (hc : c.IsCycle)
    (hmax : ∀ b ∈ c.support, rank b ≤ rank u) : False := by
  cases c with
  | nil => exact SimpleGraph.Walk.IsCycle.not_of_nil hc
  | cons ha q =>
    rename_i x
    have hqnotnil : ¬q.Nil := by
      cases q with
      | nil => exact absurd ha (G.loopless u)
      | cons h9 q9 => exact SimpleGraph.Walk.not_nil_cons
    have hrevnotnil : ¬q.reverse.Nil := by
      rw [SimpleGraph.Walk.nil_iff_length_eq, SimpleGraph.Walk.length_reverse]
      rw [SimpleGraph.Walk.nil_iff_length_eq] at hqnotnil
      omega
    have hadj_uw : G.Adj u (q.reverse.getVert 1) :=
      q.reverse.adj_getVert_one hrevnotnil
    have hedge_mem : s(u, q.reverse.getVert 1) ∈ q.edges := by
      have h1 := first_edge_mem q.reverse hrevnotnil
      rw [SimpleGraph.Walk.edges_reverse] at h1
      exact List.mem_reverse.mp h1
    have hw_mem : q.reverse.getVert 1 ∈ q.support := by
      have h1 : q.reverse.getVert 1 ∈ q.reverse.support := by
        rw [SimpleGraph.Walk.mem_support_iff_exists_getVert]
        refine ⟨1, rfl, ?_⟩
        rw [SimpleGraph.Walk.nil_iff_length_eq] at hrevnotnil
        omega
      rw [SimpleGraph.Walk.support_reverse] at h1
      exact List.mem_reverse.mp h1
    have hx_mem : x ∈ q.support := SimpleGraph.Walk.start_mem_support q
    have hrx : rank x ≤ rank u := hmax x (by
      rw [SimpleGraph.Walk.support_cons]
      exact List.mem_cons_of_mem _ hx_mem)
    have hrw : rank (q.reverse.getVert 1) ≤ rank u := hmax _ (by
      rw [SimpleGraph.Walk.support_cons]
      exact List.mem_cons_of_mem _ hw_mem)
    have hx_par : x = par u := by
      rcases hpar u x ha with ⟨h1, -⟩ | ⟨-, h2⟩
      · exact h1
      · omega
    have hw_par : q.reverse.getVert 1 = par u := by
      rcases hpar u _ hadj_uw with ⟨h1, -⟩ | ⟨-, h2⟩
      · exact h1
      · omega
    have hnodup := hc.toIsCircuit.toIsTrail.edges_nodup
    rw [SimpleGraph.Walk.edges_cons, List.nodup_cons] at hnodup
    rw [← hx_par.trans hw_par.symm] at hedge_mem
    exact hnodup.1 hedge_mem

/-- A graph each of whose edges joins a vertex to its unique parent with
strictly smaller rank is acyclic. -/
theorem acyclic_of_parent {V : Type} (G : SimpleGraph V) (par : V → V)
    (rank : V → Nat)
    (hpar : ∀ p q, G.Adj p q →
      (q = par p ∧ rank q < rank p) ∨ (p = par q ∧ rank p < rank q)) :
    G.IsAcyclic := by
  classical
  intro v c hc
  obtain ⟨u, hu_mem, hu_max⟩ := exists_max_rank rank c.support c.support_ne_nil
  refine no_cycle_at_max hpar (c.rotate hu_mem) (hc.rotate hu_mem) ?_
  intro b hb
  rw [SimpleGraph.Walk.support_eq_cons] at hb
  rcases List.mem_cons.mp hb with rfl | hb2
  · rfl
  · have hrot := SimpleGraph.Walk.support_rotate c hu_mem
    have hmem : b ∈ c.support.tail := hrot.mem_iff.mp hb2
    refine hu_max b ?_
    rw [SimpleGraph.Walk.support_eq_cons c]
    exact List.mem_cons_of_mem _ hmem

/-- The maze graph of a grid with a parent orientation is acyclic. -/
theorem mazeGraph_acyclic {W H : Nat} {g : Grid}
    (hpar : ∃ (par : Int × Int → Int × Int) (rank : Int × Int → Nat),
      ∀ p q, openAdj W H g p q →
        (q = par p ∧ rank q < rank p) ∨ (p = par q ∧ rank p < rank q)) :
    (mazeGraph W H g).IsAcyclic := by
  obtain ⟨par, rank, hp⟩ := hpar
  apply acyclic_of_parent _
    (fun v => if h : in_bounds W H (par (pz v)).1 (par (pz v)).2
      then zf (par (pz v)) h else v)
    (fun v => rank (pz v))
  intro p q hadj
  try dsimp only
  rcases hadj with h | h
  · rcases hp _ _ h with ⟨h1, h2⟩ | ⟨h1, h2⟩
    · refine Or.inl ⟨?_, h2⟩
      rw [dif_pos (h1 ▸ pz_inb q)]
      apply pz_inj
      rw [pz_zf]
      exact h1
    · refine Or.inr ⟨?_, h2⟩
      rw [dif_pos (h1 ▸ pz_inb p)]
      apply pz_inj
      rw [pz_zf]
      exact h1
  · rcases hp _ _ h with ⟨h1, h2⟩ | ⟨h1, h2⟩
    · refine Or.inr ⟨?_, h2⟩
      rw [dif_pos (h1 ▸ pz_inb p)]
      apply pz_inj
      rw [pz_zf]
      exact h1
    · refine Or.inl ⟨?_, h2⟩
      rw [dif_pos (h1 ▸ pz_inb q)]
      apply pz_inj
      rw [pz_zf]
      exact h1

/-- Reach-from-origin over passages makes the maze graph connected. -/
theorem mazeGraph_connected {W H : Nat} {g : Grid} (hW : 0 < W) (hH : 0 < H)
    (hreach : ∀ p : Int × Int, in_bounds W H p.1 p.2 →
      Relation.ReflTransGen (openAdj W H g) (0, 0) p) :
    (mazeGraph W H g).Connected := by
  have hstep : ∀ u : Fin W × Fin H,
      (mazeGraph W H g).Reachable ((⟨0, hW⟩, ⟨0, hH⟩) : Fin W × Fin H) u := by
    intro u
    have haux : ∀ q : Int × Int, Relation.ReflTransGen (openAdj W H g) (0, 0) q →
        ∀ hq : in_bounds W H q.1 q.2,
          (mazeGraph W H g).Reachable (⟨0, hW⟩, ⟨0, hH⟩) (zf q hq) := by
      intro q hq
      induction hq with
      | refl =>
        intro hb
        have heq : zf ((0 : Int), (0 : Int)) hb
            = ((⟨0, hW⟩, ⟨0, hH⟩) : Fin W × Fin H) := by
          apply pz_inj
          rw [pz_zf]
          rfl
        rw [heq]
      | tail hab hbc ih =>
        rename_i b c
        intro hc2
        have hb2 : in_bounds W H b.1 b.2 := hbc.1
        refine (ih hb2).trans ?_
        apply SimpleGraph.Adj.reachable
        refine Or.inl ?_
        rw [pz_zf, pz_zf]
        exact hbc
    have hu := haux (pz u) (hreach (pz u) (pz_inb u)) (pz_inb u)
    have hzu : zf (pz u) (pz_inb u) = u := pz_inj (pz_zf _ _)
    rwa [hzu] at hu
  rw [SimpleGraph.connected_iff]
  refine ⟨?_, ⟨(⟨0, hW⟩, ⟨0, hH⟩)⟩⟩
  intro a b
  exact (hstep a).symm.trans (hstep b)

/-- Full case analysis of `try_move` for a unit-cardinal delta: out-of-bounds
targets fail, a set source-side wall bit fails, otherwise the player moves. -/
theorem try_move_spec (W H : Nat) (g : Grid) (px py dx dy : Int)
    (hcard : (dx, dy) ∈ nbr_deltas) :
    (¬ in_bounds W H (px + dx) (py + dy) →
      try_move W H g px py dx dy = (false, px, py)) ∧
    (in_bounds W H (px + dx) (py + dy) →
      (g py px).walls &&& dir_wall (dx, dy) ≠ 0 →
      try_move W H g px py dx dy = (false, px, py)) ∧
    (in_bounds W H (px + dx) (py + dy) →
      (g py px).walls &&& dir_wall (dx, dy) = 0 →
      try_move W H g px py dx dy = (true, px + dx, py + dy)) := by
  simp only [nbr_deltas, List.mem_cons, List.not_mem_nil, or_false] at hcard
  rcases hcard with h | h | h | h <;> (rw [Prod.mk.injEq] at h; obtain ⟨rfl, rfl⟩ := h)
  · refine ⟨fun hb => by unfold try_move; rw [if_pos hb], fun hb hw => ?_, fun hb hw => ?_⟩
    · have hw2 : (g py px).walls &&& WALL_N ≠ 0 := hw
      unfold try_move
      rw [if_neg (not_not_intro hb)]
      dsimp only
      rw [if_pos ⟨rfl, rfl, hw2⟩]
    · have hw2 : (g py px).walls &&& WALL_N = 0 := hw
      unfold try_move
      rw [if_neg (not_not_intro hb)]
      dsimp only
      rw [if_neg (by rintro ⟨-, -, hbit⟩; exact hbit hw2),
        if_neg (by rintro ⟨h1, -⟩; exact absurd h1 (by decide)),
        if_neg (by rintro ⟨-, h1, -⟩; exact absurd h1 (by decide)),
        if_neg (by rintro ⟨h1, -⟩; exact absurd h1 (by decide))]
  · refine ⟨fun hb => by unfold try_move; rw [if_pos hb], fun hb hw => ?_, fun hb hw => ?_⟩
    · have hw2 : (g py px).walls &&& WALL_E ≠ 0 := hw
      unfold try_move
      rw [if_neg (not_not_intro hb)]
      dsimp only
      rw [if_neg (by rintro ⟨h1, -⟩; exact absurd h1 (by decide)),
        if_pos ⟨rfl, rfl, hw2⟩]
    · have hw2 : (g py px).walls &&& WALL_E = 0 := hw
      unfold try_move
      rw [if_neg (not_not_intro hb)]
      dsimp only
      rw [if_neg (by rintro ⟨h1, -⟩; exact absurd h1 (by decide)),
        if_neg (by rintro ⟨-, -, hbit⟩; exact hbit hw2),
        if_neg (by rintro ⟨h1, -⟩; exact absurd h1 (by decide)),
        if_neg (by rintro ⟨h1, -⟩; exact absurd h1 (by decide))]
  · refine ⟨fun hb => by unfold try_move; rw [if_pos hb], fun hb hw => ?_, fun hb hw => ?_⟩
    · have hw2 : (g py px).walls &&& WALL_S ≠ 0 := hw
      unfold try_move
      rw [if_neg (not_not_intro hb)]
      dsimp only
      rw [if_neg (by rintro ⟨-, h1, -⟩; exact absurd h1 (by decide)),
        if_neg (by rintro ⟨h1, -⟩; exact absurd h1 (by decide)),
        if_pos ⟨rfl, rfl, hw2⟩]
    · have hw2 : (g py px).walls &&& WALL_S = 0 := hw
      unfold try_move
      rw [if_neg (not_not_intro hb)]
      dsimp only
      rw [if_neg (by rintro ⟨-, h1, -⟩; exact absurd h1 (by decide)),
        if_neg (by rintro ⟨h1, -⟩; exact absurd h1 (by decide)),
        if_neg (by rintro ⟨-, -, hbit⟩; exact hbit hw2),
        if_neg (by rintro ⟨h1, -⟩; exact absurd h1 (by decide))]
  · refine ⟨fun hb => by unfold try_move; rw [if_pos hb], fun hb hw => ?_, fun hb hw => ?_⟩
    · have hw2 : (g py px).walls &&& WALL_W ≠ 0 := hw
      unfold try_move
      rw [if_neg (not_not_intro hb)]
      dsimp only
      rw [if_neg (by rintro ⟨h1, -⟩; exact absurd h1 (by decide)),
        if_neg (by rintro ⟨h1, -⟩; exact absurd h1 (by decide)),
        if_neg (by rintro ⟨-, h1, -⟩; exact absurd h1 (by decide)),
        if_pos ⟨rfl, rfl, hw2⟩]
    · have hw2 : (g py px).walls &&& WALL_W = 0 := hw
      unfold try_move
      rw [if_neg (not_not_intro hb)]
      dsimp only
      rw [if_neg (by rintro ⟨h1, -⟩; exact absurd h1 (by decide)),
        if_neg (by rintro ⟨h1, -⟩; exact absurd h1 (by decide)),
        if_neg (by rintro ⟨-, h1, -⟩; exact absurd h1 (by decide)),
        if_neg (by rintro ⟨-, -, hbit⟩; exact hbit hw2)]

/-- Inversion: a successful `try_move` means the target was in bounds and the
source-side wall bit was clear. -/
theorem try_move_true (W H : Nat) (g : Grid) (px py dx dy : Int)
    (hcard : (dx, dy) ∈ nbr_deltas)
    (h : (try_move W H g px py dx dy).1 = true) :
    in_bounds W H (px + dx) (py + dy) ∧
      (g py px).walls &&& dir_wall (dx, dy) = 0 := by
  obtain ⟨h1, h2, h3⟩ := try_move_spec W H g px py dx dy hcard
  by_cases hb : in_bounds W H (px + dx) (py + dy)
  · by_cases hw : (g py px).walls &&& dir_wall (dx, dy) = 0
    · exact ⟨hb, hw⟩
    · rw [h2 hb hw] at h
      cases h
  · rw [h1 hb] at h
    cases h

/-- The specification form of reciprocity follows from the two-family form. -/
theorem recip_of_recipHV {W H : Nat} {g : Grid} (h : RecipHV W H g) :
    Recip W H g := by
  intro p q hp hq hadj
  obtain ⟨pa, pb⟩ := p
  obtain ⟨qa, qb⟩ := q
  dsimp only at *
  simp only [adj_cells, nbr_deltas, List.mem_cons, List.not_mem_nil, or_false] at hadj
  rcases hadj with hd | hd | hd | hd <;> rw [Prod.mk.injEq] at hd
  · -- q is the north neighbour
    have hqa : qa = pa := by omega
    have hqb : qb = pb - 1 := by omega
    rw [show ((qa - pa : Int), (qb - pb : Int)) = ((0 : Int), (-1 : Int))
        from Prod.ext (by dsimp only; omega) (by dsimp only; omega),
      show ((pa - qa : Int), (pb - qb : Int)) = ((0 : Int), (1 : Int))
        from Prod.ext (by dsimp only; omega) (by dsimp only; omega),
      show dir_wall ((0 : Int), (-1 : Int)) = WALL_N from rfl,
      show dir_wall ((0 : Int), (1 : Int)) = WALL_S from rfl, hqa, hqb]
    rw [hqa, hqb] at hq
    have := h.2 pa (pb - 1) hq (by simpa using hp)
    simp only [sub_add_cancel] at this
    exact this.symm
  · -- east neighbour
    have hqa : qa = pa + 1 := by omega
    have hqb : qb = pb := by omega
    rw [show ((qa - pa : Int), (qb - pb : Int)) = ((1 : Int), (0 : Int))
        from Prod.ext (by dsimp only; omega) (by dsimp only; omega),
      show ((pa - qa : Int), (pb - qb : Int)) = ((-1 : Int), (0 : Int))
        from Prod.ext (by dsimp only; omega) (by dsimp only; omega),
      show dir_wall ((1 : Int), (0 : Int)) = WALL_E from rfl,
      show dir_wall ((-1 : Int), (0 : Int)) = WALL_W from rfl, hqa, hqb]
    rw [hqa, hqb] at hq
    exact h.1 pa pb hp hq
  · -- south neighbour
    have hqa : qa = pa := by omega
    have hqb : qb = pb + 1 := by omega
    rw [show ((qa - pa : Int), (qb - pb : Int)) = ((0 : Int), (1 : Int))
        from Prod.ext (by dsimp only; omega) (by dsimp only; omega),
      show ((pa - qa : Int), (pb - qb : Int)) = ((0 : Int), (-1 : Int))
        from Prod.ext (by dsimp only; omega) (by dsimp only; omega),
      show dir_wall ((0 : Int), (1 : Int)) = WALL_S from rfl,
      show dir_wall ((0 : Int), (-1 : Int)) = WALL_N from rfl, hqa, hqb]
    rw [hqa, hqb] at hq
    exact h.2 pa pb hp hq
  · -- west neighbour
    have hqa : qa = pa - 1 := by omega
    have hqb : qb = pb := by omega
    rw [show ((qa - pa : Int), (qb - pb : Int)) = ((-1 : Int), (0 : Int))
        from Prod.ext (by dsimp only; omega) (by dsimp only; omega),
      show ((pa - qa : Int), (pb - qb : Int)) = ((1 : Int), (0 : Int))
        from Prod.ext (by dsimp only; omega) (by dsimp only; omega),
      show dir_wall ((-1 : Int), (0 : Int)) = WALL_W from rfl,
      show dir_wall ((1 : Int), (0 : Int)) = WALL_E from rfl, hqa, hqb]
    rw [hqa, hqb] at hq
    have := h.1 (pa - 1) pb hq (by simpa using hp)
    simp only [sub_add_cancel] at this
    exact this.symm

/-- The two-family form of reciprocity follows from the specification form. -/
theorem recipHV_of_recip {W H : Nat} {g : Grid} (h : Recip W H g) :
    RecipHV W H g := by
  constructor
  · intro x y hx hy
    have := h (x, y) (x + 1, y) hx hy (by
      simp only [adj_cells, nbr_deltas, List.mem_cons]
      refine Or.inr (Or.inl ?_)
      exact Prod.ext (by dsimp only; ring) (by dsimp only; ring))
    dsimp only at this
    rw [show ((x + 1 - x : Int), (y - y : Int)) = ((1 : Int), (0 : Int))
        from Prod.ext (by ring) (by ring),
      show ((x - (x + 1) : Int), (y - y : Int)) = ((-1 : Int), (0 : Int))
        from Prod.ext (by ring) (by ring)] at this
    exact this
  · intro x y hx hy
    have := h (x, y) (x, y + 1) hx hy (by
      simp only [adj_cells, nbr_deltas, List.mem_cons]
      refine Or.inr (Or.inr (Or.inl ?_))
      exact Prod.ext (by dsimp only; ring) (by dsimp only; ring))
    dsimp only at this
    rw [show ((x - x : Int), (y + 1 - y : Int)) = ((0 : Int), (1 : Int))
        from Prod.ext (by ring) (by ring),
      show ((x - x : Int), (y - (y + 1) : Int)) = ((0 : Int), (-1 : Int))
        from Prod.ext (by ring) (by ring)] at this
    exact this

/-- `knock_down` on an adjacent pair preserves reciprocity (specification
form). -/
theorem recip_knock {W H : Nat} (g : Grid) (x y nx ny : Int)
    (hadj : adj_cells (x, y) (nx, ny)) (h : Recip W H g) :
    Recip W H (knock_down g x y nx ny) := by
  apply recip_of_recipHV
  have hHV := recipHV_of_recip h
  simp only [adj_cells, nbr_deltas, List.mem_cons, List.not_mem_nil, or_false] at hadj
  rcases hadj with hd | hd | hd | hd <;> rw [Prod.mk.injEq] at hd <;> try dsimp only at hd
  · rw [show nx = x by omega, show ny = y - 1 by omega, knock_N_eq_S]
    exact recipHV_knock_Sz (by ring) hHV
  · rw [show nx = x + 1 by omega, show ny = y by omega]
    exact recipHV_knock_Ez rfl hHV
  · rw [show nx = x by omega, show ny = y + 1 by omega]
    exact recipHV_knock_Sz rfl hHV
  · rw [show nx = x - 1 by omega, show ny = y by omega, knock_W_eq_E]
    exact recipHV_knock_Ez (by ring) hHV

/-- One generator step preserves the loop invariant. -/
theorem genStep_inv {W H : Nat} {ρ : Nat → Nat} {s : Int × Int}
    {g : Grid} {stack : List (Int × Int)} {k : Nat}
    (hInv : GenInv W H s g stack) :
    GenInv W H s (genStep W H ρ (g, stack, k)).1
      (genStep W H ρ (g, stack, k)).2.1 := by
  cases stack with
  | nil => exact hInv
  | cons hd rest =>
    obtain ⟨x, y⟩ := hd
    unfold genStep
    dsimp only
    by_cases hns : (unvisited_neighbors W H g x y).length = 0
    · rw [dif_pos hns]
      exact genInv_pop hInv hns
    · rw [dif_neg hns]
      exact genInv_push hInv (List.get_mem _ _ _)

/-- One generator step never clears a `visited` flag. -/
theorem genStep_vis_mono (W H : Nat) (ρ : Nat → Nat)
    (st : Grid × List (Int × Int) × Nat) (x y : Int)
    (h : (st.1 y x).visited = true) :
    ((genStep W H ρ st).1 y x).visited = true := by
  obtain ⟨g, stack, k⟩ := st
  cases stack with
  | nil => exact h
  | cons hd rest =>
    obtain ⟨a, b⟩ := hd
    unfold genStep
    dsimp only
    by_cases hns : (unvisited_neighbors W H g a b).length = 0
    · rw [dif_pos hns]
      exact h
    · rw [dif_neg hns]
      dsimp only
      rw [push_visited]
      split_ifs
      · rfl
      · exact h

/-- Each passage step can be realized by a successful `try_move`. -/
theorem openAdj_step_move {W H : Nat} {g : Grid} {p q : Int × Int}
    (h : openAdj W H g p q) :
    ∃ d ∈ nbr_deltas, try_move W H g p.1 p.2 d.1 d.2 = (true, q.1, q.2) := by
  obtain ⟨h1, h2, hc⟩ := h
  rcases hc with ⟨hq, hw⟩ | ⟨hq, hw⟩ | ⟨hq, hw⟩ | ⟨hq, hw⟩
  · refine ⟨(0, -1), by decide, ?_⟩
    have hb : in_bounds W H (p.1 + 0) (p.2 + -1) := by
      rw [hq] at h2
      simp only [in_bounds] at h2 ⊢
      omega
    have := (try_move_spec W H g p.1 p.2 0 (-1) (by decide)).2.2 hb hw
    rw [this, hq]
    refine congrArg _ (Prod.ext ?_ ?_) <;> dsimp only <;> ring
  · refine ⟨(1, 0), by decide, ?_⟩
    have hb : in_bounds W H (p.1 + 1) (p.2 + 0) := by
      rw [hq] at h2
      simp only [in_bounds] at h2 ⊢
      omega
    have := (try_move_spec W H g p.1 p.2 1 0 (by decide)).2.2 hb hw
    rw [this, hq]
    refine congrArg _ (Prod.ext ?_ ?_) <;> dsimp only <;> ring
  · refine ⟨(0, 1), by decide, ?_⟩
    have hb : in_bounds W H (p.1 + 0) (p.2 + 1) := by
      rw [hq] at h2
      simp only [in_bounds] at h2 ⊢
      omega
    have := (try_move_spec W H g p.1 p.2 0 1 (by decide)).2.2 hb hw
    rw [this, hq]
    refine congrArg _ (Prod.ext ?_ ?_) <;> dsimp only <;> ring
  · refine ⟨(-1, 0), by decide, ?_⟩
    have hb : in_bounds W H (p.1 + -1) (p.2 + 0) := by
      rw [hq] at h2
      simp only [in_bounds] at h2 ⊢
      omega
    have := (try_move_spec W H g p.1 p.2 (-1) 0 (by decide)).2.2 hb hw
    rw [this, hq]
    refine congrArg _ (Prod.ext ?_ ?_) <;> dsimp only <;> ring

/-- A chain of passages from `a` yields a list of all-successful moves. -/
theorem reach_moves {W H : Nat} {g : Grid} {a q : Int × Int}
    (h : Relation.ReflTransGen (openAdj W H g) a q) :
    ∃ ds : List (Int × Int), (∀ d ∈ ds, d ∈ nbr_deltas) ∧
      moves_ok W H g a ds ∧ run_moves W H g a ds = q := by
  induction h using Relation.ReflTransGen.head_induction_on with
  | refl => exact ⟨[], by simp, trivial, rfl⟩
  | head hab hbq ih =>
    rename_i a2 b
    obtain ⟨ds, hds, hok, hrun⟩ := ih
    obtain ⟨d, hd, hmv⟩ := openAdj_step_move hab
    refine ⟨d :: ds, ?_, ?_, ?_⟩
    · intro e he
      rcases List.mem_cons.mp he with rfl | he2
      · exact hd
      · exact hds e he2
    · refine ⟨by rw [hmv], ?_⟩
      rw [hmv]
      dsimp only
      rw [show ((b.1, b.2) : Int × Int) = b from Prod.ext rfl rfl]
      exact hok
    · show run_moves W H g ((try_move W H g a2.1 a2.2 d.1 d.2).2.1,
        (try_move W H g a2.1 a2.2 d.1 d.2).2.2) ds = q
      rw [hmv]
      dsimp only
      rw [show ((b.1, b.2) : Int × Int) = b from Prod.ext rfl rfl]
      exact hrun

/-- The won latch, once set, survives further movement keys. -/
theorem run_session_won_stays (W H : Nat) (g : Grid) :
    ∀ (ds : List (Int × Int)) (s : Session), s.won = true →
      (run_session W H g s ds).won = true := by
  intro ds
  induction ds with
  | nil => intro s h; exact h
  | cons d ds ih =>
    intro s h
    show (run_session W H g (handle_move W H g s d) ds).won = true
    rw [show handle_move W H g s d = s by unfold handle_move; rw [if_pos h]]
    exact ih s h

/-- Following a non-empty all-successful path to the goal sets the won latch. -/
theorem run_session_won (W H : Nat) (g : Grid) :
    ∀ (ds : List (Int × Int)) (p : Int × Int), moves_ok W H g p ds →
      run_moves W H g p ds = ((W : Int) - 1, (H : Int) - 1) → ds ≠ [] →
      (run_session W H g ⟨p.1, p.2, false⟩ ds).won = true := by
  intro ds
  induction ds with
  | nil =>
    intro p hok hrun hne
    exact absurd rfl hne
  | cons d ds ih =>
    intro p hok hrun hne
    obtain ⟨hmv, hok2⟩ := hok
    have hs1 : handle_move W H g ⟨p.1, p.2, false⟩ d
        = if (try_move W H g p.1 p.2 d.1 d.2).2.1 = (W : Int) - 1 ∧
             (try_move W H g p.1 p.2 d.1 d.2).2.2 = (H : Int) - 1
          then ⟨(try_move W H g p.1 p.2 d.1 d.2).2.1,
            (try_move W H g p.1 p.2 d.1 d.2).2.2, true⟩
          else ⟨(try_move W H g p.1 p.2 d.1 d.2).2.1,
            (try_move W H g p.1 p.2 d.1 d.2).2.2, false⟩ := by
      unfold handle_move
      rw [if_neg (by simp)]
    by_cases hwin : (try_move W H g p.1 p.2 d.1 d.2).2.1 = (W : Int) - 1 ∧
        (try_move W H g p.1 p.2 d.1 d.2).2.2 = (H : Int) - 1
    · show (run_session W H g (handle_move W H g ⟨p.1, p.2, false⟩ d) ds).won = true
      rw [hs1, if_pos hwin]
      exact run_session_won_stays W H g ds _ rfl
    · cases ds with
      | nil =>
        exfalso
        apply hwin
        have : run_moves W H g p [d] = ((try_move W H g p.1 p.2 d.1 d.2).2.1,
            (try_move W H g p.1 p.2 d.1 d.2).2.2) := rfl
        rw [this] at hrun
        exact ⟨congrArg Prod.fst hrun, congrArg Prod.snd hrun⟩
      | cons e es =>
        show (run_session W H g (handle_move W H g ⟨p.1, p.2, false⟩ d) (e :: es)).won = true
        rw [hs1, if_neg hwin]
        exact ih ((try_move W H g p.1 p.2 d.1 d.2).2.1,
          (try_move W H g p.1 p.2 d.1 d.2).2.2) hok2 hrun (by simp)

/-- The stack of an invariant state holds distinct in-bounds cells, so its
depth is at most `W*H`. -/
theorem genInv_stack_bound {W H : Nat} {s : Int × Int} {g : Grid}
    {stack : List (Int × Int)} (hInv : GenInv W H s g stack) :
    stack.length ≤ W * H := by
  calc stack.length = stack.toFinset.card :=
        (List.toFinset_card_of_nodup hInv.stack_nodup).symm
    _ ≤ (cellFinset W H).card := Finset.card_le_card (fun p hp =>
        mem_cellFinset.mpr (hInv.stack_inb p (List.mem_toFinset.mp hp)))
    _ = W * H := card_cellFinset W H

/-- C1: after `maze_init` followed by `maze_generate(0,0)`, the graph whose
nodes are the `MAZE_W * MAZE_H` cells and whose edges are the missing walls
between adjacent cells is a spanning tree of the grid: every cell is reachable
from `(0,0)` through passages, the graph is connected and acyclic, and there
are exactly `MAZE_W * MAZE_H - 1` passages — for every random stream `ρ`. -/
theorem generate_spanning_tree (ρ : Nat → Nat) :
    (∀ p : Int × Int, in_bounds MAZE_W MAZE_H p.1 p.2 →
      Relation.ReflTransGen
        (openAdj MAZE_W MAZE_H (maze_generate MAZE_W MAZE_H ρ maze_init 0 0))
        (0, 0) p) ∧
    (mazeGraph MAZE_W MAZE_H (maze_generate MAZE_W MAZE_H ρ maze_init 0 0)).Connected ∧
    (mazeGraph MAZE_W MAZE_H (maze_generate MAZE_W MAZE_H ρ maze_init 0 0)).IsAcyclic ∧
    passageCount MAZE_W MAZE_H (maze_generate MAZE_W MAZE_H ρ maze_init 0 0)
      = MAZE_W * MAZE_H - 1 := by
  obtain ⟨hreach, hcount, hrecip, hparent, hvis⟩ :=
    maze_generate_spec MAZE_W MAZE_H ρ (show in_bounds MAZE_W MAZE_H 0 0 by decide)
  refine ⟨hreach, mazeGraph_connected (by decide) (by decide) hreach,
    mazeGraph_acyclic hparent, ?_⟩
  omega

theorem generate_spanning_tree_witness :
    Relation.ReflTransGen
      (openAdj MAZE_W MAZE_H
        (maze_generate MAZE_W MAZE_H (fun _ => 0) maze_init 0 0))
      (0, 0) (20, 14) :=
  (generate_spanning_tree (fun _ => 0)).1 (20, 14) (by decide)

/-- C2: wall reciprocity — for every pair of 4-adjacent cells `A`, `B`, `A`'s
wall bit on its `B`-facing side is set iff `B`'s wall bit on its `A`-facing
side is set — holds after `maze_init`, is preserved by every `knock_down` on
an adjacent pair, and holds after `maze_generate`. -/
theorem wall_reciprocity :
    (∀ W H : Nat, Recip W H maze_init) ∧
    (∀ (W H : Nat) (g : Grid) (x y nx ny : Int), adj_cells (x, y) (nx, ny) →
      Recip W H g → Recip W H (knock_down g x y nx ny)) ∧
    (∀ ρ : Nat → Nat,
      Recip MAZE_W MAZE_H (maze_generate MAZE_W MAZE_H ρ maze_init 0 0)) := by
  refine ⟨?_, fun W H g x y nx ny hadj h => recip_knock g x y nx ny hadj h, ?_⟩
  · intro W H
    apply recip_of_recipHV
    constructor
    · intro u v hu hv
      rw [show (maze_init v u).walls = 15 from rfl,
        show (maze_init v (u + 1)).walls = 15 from rfl]
      decide
    · intro u v hu hv
      rw [show (maze_init v u).walls = 15 from rfl,
        show (maze_init (v + 1) u).walls = 15 from rfl]
      decide
  · intro ρ
    exact recip_of_recipHV
      (maze_generate_spec MAZE_W MAZE_H ρ (show in_bounds MAZE_W MAZE_H 0 0 by decide)).2.2.1

theorem wall_reciprocity_witness : Recip 21 15 (knock_down maze_init 0 0 1 0) :=
  wall_reciprocity.2.1 21 15 maze_init 0 0 1 0 (by decide)
    (wall_reciprocity.1 21 15)

/-- C3: for an in-bounds player cell and a unit-cardinal delta, `try_move`
fails without moving when the target is out of bounds or the source cell's
wall bit for that direction is set, and otherwise moves the player to the
target and returns true. -/
theorem try_move_cases (g : Grid) (px py dx dy : Int)
    (hp : in_bounds MAZE_W MAZE_H px py) (hcard : (dx, dy) ∈ nbr_deltas) :
    (¬ in_bounds MAZE_W MAZE_H (px + dx) (py + dy) →
      try_move MAZE_W MAZE_H g px py dx dy = (false, px, py)) ∧
    (in_bounds MAZE_W MAZE_H (px + dx) (py + dy) →
      (g py px).walls &&& dir_wall (dx, dy) ≠ 0 →
      try_move MAZE_W MAZE_H g px py dx dy = (false, px, py)) ∧
    (in_bounds MAZE_W MAZE_H (px + dx) (py + dy) →
      (g py px).walls &&& dir_wall (dx, dy) = 0 →
      try_move MAZE_W MAZE_H g px py dx dy = (true, px + dx, py + dy)) :=
  try_move_spec MAZE_W MAZE_H g px py dx dy hcard

theorem try_move_cases_witness :
    try_move MAZE_W MAZE_H maze_init 0 0 1 0 = (false, 0, 0) :=
  (try_move_cases maze_init 0 0 1 0 (by decide) (by decide)).2.1 (by decide)
    (by decide)

/-- C4: from the initial state of `maze_generate(0,0)` on a `maze_init` grid,
every state the loop can reach has stack depth at most `MAZE_W * MAZE_H`, so
the fixed-size stack buffer is never overrun. -/
theorem stack_never_overruns (ρ : Nat → Nat) (sx sy : Int)
    (hs : in_bounds MAZE_W MAZE_H sx sy)
    (st : Grid × List (Int × Int) × Nat)
    (h : GenReach MAZE_W MAZE_H ρ (genStart maze_init sx sy) st) :
    st.2.1.length ≤ MAZE_W * MAZE_H := by
  have hInv : GenInv MAZE_W MAZE_H (sx, sy) st.1 st.2.1 := by
    induction h with
    | refl => exact genInv_init hs
    | tail hab hbc ih =>
      obtain ⟨-, rfl⟩ := hbc
      exact genStep_inv ih
  exact genInv_stack_bound hInv

theorem stack_never_overruns_witness :
    (genStart maze_init 0 0).2.1.length ≤ MAZE_W * MAZE_H :=
  stack_never_overruns (fun _ => 0) 0 0 (by decide) (genStart maze_init 0 0)
    Relation.ReflTransGen.refl

/-- C5: after `maze_generate` returns every cell's `visited` flag is false,
and during generation a step of the loop never clears a `visited` flag
(so each flag goes from false to true at most once before the final reset). -/
theorem visited_discipline (ρ : Nat → Nat) :
    (∀ (g : Grid) (sx sy x y : Int), in_bounds MAZE_W MAZE_H x y →
      ((maze_generate MAZE_W MAZE_H ρ g sx sy) y x).visited = false) ∧
    (∀ (st : Grid × List (Int × Int) × Nat) (x y : Int),
      (st.1 y x).visited = true →
      ((genStep MAZE_W MAZE_H ρ st).1 y x).visited = true) := by
  constructor
  · intro g sx sy x y hin
    exact clear_visited_visited MAZE_W MAZE_H _ hin
  · exact genStep_vis_mono MAZE_W MAZE_H ρ

theorem visited_discipline_witness :
    ((maze_generate MAZE_W MAZE_H (fun _ => 0) maze_init 0 0) 0 0).visited
      = false :=
  (visited_discipline (fun _ => 0)).1 maze_init 0 0 0 0 (by decide)

/-- C8: the `R` key taken from any session state, including a won one, yields
the playing state: the grid is reset and freshly generated from `(0,0)`, the
player is at `(0,0)` and the won latch is cleared. -/
theorem regenerate_resets (ρ : Nat → Nat) (s : Grid × Session) :
    handle_regen MAZE_W MAZE_H ρ s
      = (maze_generate MAZE_W MAZE_H ρ maze_init 0 0, ⟨0, 0, false⟩) := rfl

/-- C9: for a delta that is not one of the four unit cardinals, `try_move`
performs no wall check at all: if the target is in bounds it unconditionally
moves the player there and returns true. -/
theorem non_cardinal_moves (g : Grid) (px py dx dy : Int)
    (hncard : (dx, dy) ∉ nbr_deltas)
    (hb : in_bounds MAZE_W MAZE_H (px + dx) (py + dy)) :
    try_move MAZE_W MAZE_H g px py dx dy = (true, px + dx, py + dy) := by
  unfold try_move
  rw [if_neg (not_not_intro hb)]
  dsimp only
  rw [if_neg (by rintro ⟨rfl, rfl, -⟩; exact hncard (by decide)),
    if_neg (by rintro ⟨rfl, rfl, -⟩; exact hncard (by decide)),
    if_neg (by rintro ⟨rfl, rfl, -⟩; exact hncard (by decide)),
    if_neg (by rintro ⟨rfl, rfl, -⟩; exact hncard (by decide))]

theorem non_cardinal_moves_witness :
    try_move MAZE_W MAZE_H maze_init 0 0 1 1 = (true, 0 + 1, 0 + 1) :=
  non_cardinal_moves maze_init 0 0 1 1 (by decide) (by decide)

/-- C10: `knock_down` on a pair of cells that is not 4-adjacent (the delta is
not a unit cardinal) leaves every cell of the grid unchanged. -/
theorem knock_down_nonadjacent (g : Grid) (x y nx ny : Int)
    (h : ((nx - x, ny - y) : Int × Int) ∉ nbr_deltas) :
    knock_down g x y nx ny = g := by
  unfold knock_down
  rw [if_neg (fun hc => h (by
      rw [hc.1, hc.2]
      simp only [nbr_deltas, List.mem_cons]
      exact Or.inl (Prod.ext (by dsimp only; ring) (by dsimp only; ring)))),
    if_neg (fun hc => h (by
      rw [hc.1, hc.2]
      simp only [nbr_deltas, List.mem_cons]
      exact Or.inr (Or.inl (Prod.ext (by dsimp only; ring) (by dsimp only; ring))))),
    if_neg (fun hc => h (by
      rw [hc.1, hc.2]
      simp only [nbr_deltas, List.mem_cons]
      exact Or.inr (Or.inr (Or.inl
        (Prod.ext (by dsimp only; ring) (by dsimp only; ring)))))),
    if_neg (fun hc => h (by
      rw [hc.1, hc.2]
      simp only [nbr_deltas, List.mem_cons]
      exact Or.inr (Or.inr (Or.inr (Or.inl
        (Prod.ext (by dsimp only; ring) (by dsimp only; ring)))))))]

theorem knock_down_nonadjacent_witness :
    knock_down maze_init 0 0 2 0 = maze_init :=
  knock_down_nonadjacent maze_init 0 0 2 0 (by decide)

/-- C6: on a grid satisfying wall reciprocity, a successful `try_move` from an
in-bounds cell with a unit-cardinal delta can be undone: `try_move` from the
target with the opposite delta succeeds and moves the player back. -/
theorem move_symmetry (g : Grid) (px py dx dy : Int)
    (hrec : Recip MAZE_W MAZE_H g) (hp : in_bounds MAZE_W MAZE_H px py)
    (hcard : (dx, dy) ∈ nbr_deltas)
    (h : (try_move MAZE_W MAZE_H g px py dx dy).1 = true) :
    try_move MAZE_W MAZE_H g (px + dx) (py + dy) (-dx) (-dy) = (true, px, py) := by
  obtain ⟨hb, hw⟩ := try_move_true MAZE_W MAZE_H g px py dx dy hcard h
  simp only [nbr_deltas, List.mem_cons, List.not_mem_nil, or_false] at hcard
  rcases hcard with h1 | h1 | h1 | h1 <;>
    (rw [Prod.mk.injEq] at h1; obtain ⟨rfl, rfl⟩ := h1) <;>
    simp only [neg_zero, neg_neg]
  · -- north
    have hiff := hrec (px, py) (px + 0, py + -1) hp hb (by
      unfold adj_cells
      rw [show (((px + 0 : Int) - px, (py + -1 : Int) - py) : Int × Int)
          = ((0 : Int), (-1 : Int)) from
        Prod.ext (by dsimp only; ring) (by dsimp only; ring)]
      decide)
    rw [show (((px + 0 : Int) - px, (py + -1 : Int) - py) : Int × Int)
        = ((0 : Int), (-1 : Int)) from
        Prod.ext (by dsimp only; ring) (by dsimp only; ring),
      show (((px : Int) - (px + 0), (py : Int) - (py + -1)) : Int × Int)
        = ((0 : Int), (1 : Int)) from
        Prod.ext (by dsimp only; ring) (by dsimp only; ring)] at hiff
    have hwB := hiff.mp hw
    have hres := (try_move_spec MAZE_W MAZE_H g (px + 0) (py + -1) 0 1
      (by decide)).2.2 (by
        simp only [in_bounds] at hp ⊢
        omega) hwB
    rw [hres]
    exact Prod.ext rfl (Prod.ext (by dsimp only; ring) (by dsimp only; ring))
  · -- east
    have hiff := hrec (px, py) (px + 1, py + 0) hp hb (by
      unfold adj_cells
      rw [show (((px + 1 : Int) - px, (py + 0 : Int) - py) : Int × Int)
          = ((1 : Int), (0 : Int)) from
        Prod.ext (by dsimp only; ring) (by dsimp only; ring)]
      decide)
    rw [show (((px + 1 : Int) - px, (py + 0 : Int) - py) : Int × Int)
        = ((1 : Int), (0 : Int)) from
        Prod.ext (by dsimp only; ring) (by dsimp only; ring),
      show (((px : Int) - (px + 1), (py : Int) - (py + 0)) : Int × Int)
        = ((-1 : Int), (0 : Int)) from
        Prod.ext (by dsimp only; ring) (by dsimp only; ring)] at hiff
    have hwB := hiff.mp hw
    have hres := (try_move_spec MAZE_W MAZE_H g (px + 1) (py + 0) (-1) 0
      (by decide)).2.2 (by
        simp only [in_bounds] at hp ⊢
        omega) hwB
    rw [hres]
    exact Prod.ext rfl (Prod.ext (by dsimp only; ring) (by dsimp only; ring))
  · -- south
    have hiff := hrec (px, py) (px + 0, py + 1) hp hb (by
      unfold adj_cells
      rw [show (((px + 0 : Int) - px, (py + 1 : Int) - py) : Int × Int)
          = ((0 : Int), (1 : Int)) from
        Prod.ext (by dsimp only; ring) (by dsimp only; ring)]
      decide)
    rw [show (((px + 0 : Int) - px, (py + 1 : Int) - py) : Int × Int)
        = ((0 : Int), (1 : Int)) from
        Prod.ext (by dsimp only; ring) (by dsimp only; ring),
      show (((px : Int) - (px + 0), (py : Int) - (py + 1)) : Int × Int)
        = ((0 : Int), (-1 : Int)) from
        Prod.ext (by dsimp only; ring) (by dsimp only; ring)] at hiff
    have hwB := hiff.mp hw
    have hres := (try_move_spec MAZE_W MAZE_H g (px + 0) (py + 1) 0 (-1)
      (by decide)).2.2 (by
        simp only [in_bounds] at hp ⊢
        omega) hwB
    rw [hres]
    exact Prod.ext rfl (Prod.ext (by dsimp only; ring) (by dsimp only; ring))
  · -- west
    have hiff := hrec (px, py) (px + -1, py + 0) hp hb (by
      unfold adj_cells
      rw [show (((px + -1 : Int) - px, (py + 0 : Int) - py) : Int × Int)
          = ((-1 : Int), (0 : Int)) from
        Prod.ext (by dsimp only; ring) (by dsimp only; ring)]
      decide)
    rw [show (((px + -1 : Int) - px, (py + 0 : Int) - py) : Int × Int)
        = ((-1 : Int), (0 : Int)) from
        Prod.ext (by dsimp only; ring) (by dsimp only; ring),
      show (((px : Int) - (px + -1), (py : Int) - (py + 0)) : Int × Int)
        = ((1 : Int), (0 : Int)) from
        Prod.ext (by dsimp only; ring) (by dsimp only; ring)] at hiff
    have hwB := hiff.mp hw
    have hres := (try_move_spec MAZE_W MAZE_H g (px + -1) (py + 0) 1 0
      (by decide)).2.2 (by
        simp only [in_bounds] at hp ⊢
        omega) hwB
    rw [hres]
    exact Prod.ext rfl (Prod.ext (by dsimp only; ring) (by dsimp only; ring))

theorem move_symmetry_witness :
    try_move MAZE_W MAZE_H (knock_down maze_init 0 0 1 0) (0 + 1) (0 + 0)
      (-1) (-0) = (true, 0, 0) :=
  move_symmetry (knock_down maze_init 0 0 1 0) 0 0 1 0
    (wall_reciprocity.2.1 MAZE_W MAZE_H maze_init 0 0 1 0 (by decide)
      (wall_reciprocity.1 MAZE_W MAZE_H))
    (by decide) (by decide) (by decide)

/-- C7: for every random stream, the generated maze admits a finite sequence
of unit-cardinal moves from `(0,0)` to the goal cell, every `try_move`
returning true, and feeding those keys to the session sets the won latch. -/
theorem win_reachable (ρ : Nat → Nat) :
    ∃ ds : List (Int × Int),
      (∀ d ∈ ds, d ∈ nbr_deltas) ∧
      moves_ok MAZE_W MAZE_H (maze_generate MAZE_W MAZE_H ρ maze_init 0 0)
        (0, 0) ds ∧
      run_moves MAZE_W MAZE_H (maze_generate MAZE_W MAZE_H ρ maze_init 0 0)
        (0, 0) ds = ((MAZE_W : Int) - 1, (MAZE_H : Int) - 1) ∧
      (run_session MAZE_W MAZE_H (maze_generate MAZE_W MAZE_H ρ maze_init 0 0)
        ⟨0, 0, false⟩ ds).won = true := by
  obtain ⟨hreach, -, -, -, -⟩ :=
    maze_generate_spec MAZE_W MAZE_H ρ (show in_bounds MAZE_W MAZE_H 0 0 by decide)
  have hgoal := hreach ((MAZE_W : Int) - 1, (MAZE_H : Int) - 1) (by decide)
  obtain ⟨ds, hds, hok, hrun⟩ := reach_moves hgoal
  have hne : ds ≠ [] := by
    intro hnil
    rw [hnil] at hrun
    have h00 : (((0 : Int), (0 : Int)) : Int × Int)
        = ((MAZE_W : Int) - 1, (MAZE_H : Int) - 1) := hrun
    exact absurd h00 (by decide)
  exact ⟨ds, hds, hok, hrun,
    run_session_won MAZE_W MAZE_H _ ds (0, 0) hok hrun hne⟩

theorem win_reachable_witness :
    ∃ ds : List (Int × Int),
      (∀ d ∈ ds, d ∈ nbr_deltas) ∧
      moves_ok MAZE_W MAZE_H
        (maze_generate MAZE_W MAZE_H (fun _ => 0) maze_init 0 0) (0, 0) ds ∧
      run_moves MAZE_W MAZE_H
        (maze_generate MAZE_W MAZE_H (fun _ => 0) maze_init 0 0) (0, 0) ds
        = ((MAZE_W : Int) - 1, (MAZE_H : Int) - 1) ∧
      (run_session MAZE_W MAZE_H
        (maze_generate MAZE_W MAZE_H (fun _ => 0) maze_init 0 0)
        ⟨0, 0, false⟩ ds).won = true :=
  win_reachable (fun _ => 0)

end Maze
